import Mathlib

/-!
Verification development for the ptolemy road-map pipeline.

The Rust sources are embedded shallowly:
* machine integers are modelled as `Int`/`Nat` with explicit wrapping
  (`% 2 ^ 32`, `% 256`) where Rust casts or wrapping arithmetic occur;
* fallible code (including panics such as `unwrap()` on `None`) is modelled
  with `Option`/`Except`, where `none`/`.error` marks the panic;
* external library calls (gzip framing, the R*-tree, petgraph search,
  the SipHash hasher, IEEE-754 haversine values) are kept as explicit
  parameters or modelled by their documented behaviour, as noted at each
  definition.
-/

set_option maxHeartbeats 1000000

namespace Ptolemy

/-! ## 32-bit wrapping arithmetic

Rust `i32` values are modelled as integers in `[-2^31, 2^31)`; `wrap32`
is the canonical representative of an integer modulo `2^32` in that range,
which is what wrapping `i32` addition/subtraction and `as i32` casts
compute. -/

/-- Reduce an integer to the `i32` range, as Rust wrapping arithmetic and
`as i32` casts do. -/
def wrap32 (x : Int) : Int := (x + 2 ^ 31) % 2 ^ 32 - 2 ^ 31

/-- The value of `x as u32` for an `i32` value `x`. -/
def u32ofI32 (x : Int) : Int := x % 2 ^ 32

/-- The value of `x as u8` for an `i32` value `x`. -/
def u8ofI32 (x : Int) : Int := x % 2 ^ 8

/-- The value of `x as usize` for an `i32` value `x` on a 64-bit target:
sign-extend, then reinterpret. -/
def i32AsUsize (x : Int) : Nat := (x % 2 ^ 64).toNat

/-- Membership in the `i32` range. -/
def inI32 (x : Int) : Prop := -2 ^ 31 ≤ x ∧ x < 2 ^ 31

instance (x : Int) : Decidable (inI32 x) := by unfold inI32; infer_instance

theorem wrap32_eq_self {x : Int} (h : inI32 x) : wrap32 x = x := by
  obtain ⟨h1, h2⟩ := h
  unfold wrap32
  omega

theorem wrap32_inI32 (x : Int) : inI32 (wrap32 x) := by
  unfold wrap32 inI32
  constructor <;> omega

theorem wrap32_add_left (a b : Int) : wrap32 (a + wrap32 b) = wrap32 (a + b) := by
  unfold wrap32
  omega

theorem u32ofI32_wrap32 {d : Int} (h1 : 0 ≤ d) (h2 : d < 2 ^ 32) :
    u32ofI32 (wrap32 d) = d := by
  unfold u32ofI32 wrap32
  omega

/-! ## Delta encoding (generator/parser/serialize.rs `compress`,
cartograph.rs `decompress`)

The gzip layer and the little-endian byte framing are external (`flate2`,
`byteorder`) and are a bijection between the `i32` stream and the bytes, so
columns are modelled directly as lists of `i32` values. -/

/-- Wrapped running differences: the loop body of `compress`
(`let delta = value - prev`). -/
def deltasFrom (prev : Int) : List Int → List Int
  | [] => []
  | v :: rest => wrap32 (v - prev) :: deltasFrom v rest

/-- Delta-encode one column, from `compress` in generator/parser/serialize.rs.
The source unwraps the first value of the iterator, so an empty column
panics: this is the `none` case. -/
def compressDeltas : List Int → Option (List Int)
  | [] => none
  | v :: rest => some (v :: deltasFrom v rest)

/-- Wrapped running sums: the loop body of `Cartograph::decompress`
(`prev += delta`). -/
def sumsFrom (prev : Int) : List Int → List Int
  | [] => []
  | d :: rest => wrap32 (prev + d) :: sumsFrom (wrap32 (prev + d)) rest

/-- Decode a delta-encoded column of exactly `len` values, from
`Cartograph::decompress`. Reading past the end of the stream is an I/O
error (`none`). -/
def decompressN (len : Nat) (col : List Int) : Option (List Int) :=
  if col.length < len then none
  else match len, col with
    | 0, _ => some []
    | _ + 1, [] => none
    | _ + 1, v :: deltas => some (v :: sumsFrom v (deltas.take (len - 1)))

theorem sumsFrom_deltasFrom (prev : Int) (l : List Int) (h : ∀ x ∈ l, inI32 x) :
    sumsFrom prev (deltasFrom prev l) = l := by
  induction l generalizing prev with
  | nil => rfl
  | cons v rest ih =>
    have hv : inI32 v := h v (List.mem_cons_self _ _)
    have : wrap32 (prev + wrap32 (v - prev)) = v := by
      rw [wrap32_add_left]
      simpa using wrap32_eq_self hv
    simp only [deltasFrom, sumsFrom, this]
    exact congrArg _ (ih v fun x hx => h x (List.mem_cons_of_mem _ hx))

theorem length_deltasFrom (prev : Int) (l : List Int) :
    (deltasFrom prev l).length = l.length := by
  induction l generalizing prev with
  | nil => rfl
  | cons w t ih => simpa [deltasFrom] using ih w

theorem decompressN_compressDeltas (l : List Int) (c : List Int)
    (h : ∀ x ∈ l, inI32 x) (hc : compressDeltas l = some c) :
    decompressN l.length c = some l := by
  match l, hc with
  | v :: rest, hc =>
    simp only [compressDeltas, Option.some.injEq] at hc
    subst hc
    have hlen : (deltasFrom v rest).length = rest.length := length_deltasFrom v rest
    simp only [decompressN, List.length_cons, hlen]
    rw [if_neg (by omega)]
    have htake : (deltasFrom v rest).take (rest.length + 1 - 1) = deltasFrom v rest := by
      rw [Nat.add_sub_cancel, ← hlen]
      exact List.take_length _
    simp only [htake, sumsFrom_deltasFrom v rest fun x hx => h x (List.mem_cons_of_mem _ hx)]

/-! ## The serializer-side graph (generator Graph as consumed by
generator/parser/serialize.rs)

`serialize` only reads, for each graph node, its point as micro-degree
angles (`info.point.lat/lon.as_micro_degrees()`, exact `i32` values), and
for each edge its endpoint indices and `EdgeInfo { road_level: u8,
distance: u32 }`. Nodes are listed in index order (petgraph's
`node_references`), edges in edge-index order (`edge_references`). -/

structure SEdge where
  source : Nat
  target : Nat
  /-- Value of the `u32` field `EdgeInfo.distance`. -/
  distance : Int
  /-- Value of the `u8` field `EdgeInfo.road_level`. -/
  road_level : Int
  deriving Repr, DecidableEq

structure SGraph where
  /-- Micro-degree `(lat, lon)` of each node, in node-index order. -/
  nodes : List (Int × Int)
  edges : List SEdge
  deriving Repr, DecidableEq

/-- The local `struct Node { index, lat, lon }` of `serialize`. -/
structure SNode where
  index : Int
  lat : Int
  lon : Int
  deriving Repr, DecidableEq

/-- Lexicographic order on the Rust key `(node.lat, node.lon)`. -/
def sNodeLe (a b : SNode) : Prop :=
  a.lat < b.lat ∨ (a.lat = b.lat ∧ a.lon ≤ b.lon)

instance : DecidableRel sNodeLe := by unfold sNodeLe; infer_instance

/-- The node table of `serialize`: one `SNode` per graph node, in node-index
order. -/
def nodeTable (g : SGraph) : List SNode :=
  g.nodes.enum.map fun p => ⟨(p.1 : Int), p.2.1, p.2.2⟩

/-- The node table sorted by `(lat, lon)`: models the stable
`nodes.sort_by_key(|node| (node.lat, node.lon))`. -/
def sortedNodes (g : SGraph) : List SNode :=
  List.insertionSort sNodeLe (nodeTable g)

/-- Lookup in the remap array `node_index_map`: the array is filled with
`i32::MAX` and then, for each position `i` of the sorted node table, entry
`node.index` is set to `i`; since the sorted table holds each graph index
exactly once, the entry for `old` is the position of `old` in the sorted
table. -/
def nodeIndexMap (sorted : List SNode) (old : Int) : Int :=
  match sorted.findIdx? (fun t => t.index == old) with
  | some i => (i : Int)
  | none => 2 ^ 31 - 1

/-- The local `struct Edge` of `serialize`, all fields `i32`. -/
structure WEdge where
  source : Int
  target : Int
  distance : Int
  road_level : Int
  deriving Repr, DecidableEq

/-- Lexicographic order on the Rust key `(edge.source, edge.target)`. -/
def wEdgeLe (a b : WEdge) : Prop :=
  a.source < b.source ∨ (a.source = b.source ∧ a.target ≤ b.target)

instance : DecidableRel wEdgeLe := by unfold wEdgeLe; infer_instance

/-- Remap one graph edge to the serialized `Edge` record:
`node_index_map[source]`, `node_index_map[target]`, `distance as i32`,
`road_level as i32`. -/
def remapEdge (sorted : List SNode) (e : SEdge) : WEdge :=
  ⟨nodeIndexMap sorted (e.source : Int), nodeIndexMap sorted (e.target : Int),
    wrap32 e.distance, e.road_level⟩

/-- The edge table of `serialize`, sorted by `(source, target)` (stable
`sort_by_key`). -/
def sortedEdges (g : SGraph) : List WEdge :=
  List.insertionSort wEdgeLe (g.edges.map (remapEdge (sortedNodes g)))

/-- The serialized artifact: the magic and the gzip byte framing are
byte-level details external to the claims; the payload is the two `u32`
counts and the six delta-encoded `i32` columns, in file order. -/
structure PFile where
  numNodes : Int
  numEdges : Int
  latCol : List Int
  lonCol : List Int
  srcCol : List Int
  tgtCol : List Int
  distCol : List Int
  lvlCol : List Int
  deriving Repr, DecidableEq

/-- Write the artifact, from `serialize` in generator/parser/serialize.rs.
`none` is the panic raised by `compress` on an empty column iterator
(`values.next().unwrap()`); the six columns are compressed left to right
(the source compresses them in parallel but joins and writes them in this
fixed order, panicking at the first failed join). -/
def serialize (g : SGraph) : Option PFile := do
  let sorted := sortedNodes g
  let edges := sortedEdges g
  let lat ← compressDeltas (sorted.map (·.lat))
  let lon ← compressDeltas (sorted.map (·.lon))
  let src ← compressDeltas (edges.map (·.source))
  let tgt ← compressDeltas (edges.map (·.target))
  let dist ← compressDeltas (edges.map (·.distance))
  let lvl ← compressDeltas (edges.map (·.road_level))
  some ⟨(g.nodes.length : Int) % 2 ^ 32, (g.edges.length : Int) % 2 ^ 32,
    lat, lon, src, tgt, dist, lvl⟩

/-! ## The reader (Cartograph::open in cartograph.rs) -/

/-- An edge of the loaded cartograph graph: petgraph `add_edge` endpoints
and `EdgeInfo { distance: u32, road_level: u8 }`. -/
structure REdge where
  source : Nat
  target : Nat
  distance : Int
  road_level : Int
  deriving Repr, DecidableEq

/-- The loaded cartograph graph: node points in index order (micro-degree
`(lat, lon)`, as rebuilt by `GeoPoint::from_micro_degrees`), edges in
insertion order. -/
structure RGraph where
  nodes : List (Int × Int)
  edges : List REdge
  deriving Repr, DecidableEq

/-- Read an artifact, from `Cartograph::open`: read the two counts, decode
the six columns (`decompress`), zip latitudes with longitudes into nodes and
the four edge columns into edges (`source as usize`, `target as usize`,
`distance as u32`, `road_level as u8`). `none` is an I/O error. -/
def openFile (f : PFile) : Option RGraph := do
  let numNodes := f.numNodes.toNat
  let numEdges := f.numEdges.toNat
  let lats ← decompressN numNodes f.latCol
  let lons ← decompressN numNodes f.lonCol
  let srcs ← decompressN numEdges f.srcCol
  let tgts ← decompressN numEdges f.tgtCol
  let dists ← decompressN numEdges f.distCol
  let lvls ← decompressN numEdges f.lvlCol
  let nodes := lats.zip lons
  let edges := (((srcs.zip tgts).zip dists).zip lvls).map
    fun p => REdge.mk (i32AsUsize p.1.1.1) (i32AsUsize p.1.1.2)
      (u32ofI32 p.1.2) (u8ofI32 p.2)
  some ⟨nodes, edges⟩

/-! ## parse_oneway (generator2/parser.rs) -/

/-- First value of the tag with the given key, from `get_tag`
(`way.tags().find(|tag| tag.0 == name)`). -/
def get_tag (tags : List (String × String)) (name : String) : Option String :=
  (tags.find? (fun t => t.1 == name)).map (·.2)

structure Direction where
  direct : Bool
  reverse : Bool
  deriving Repr, DecidableEq

/-- Convert the `oneway`/`junction`/`highway` tags of a way into a
direction, from `parse_oneway` in generator2/parser.rs, matching the source
arm for arm. -/
def parse_oneway (tags : List (String × String)) : Direction :=
  let junction := get_tag tags "junction"
  let highway := get_tag tags "highway"
  let oneway := get_tag tags "oneway"
  let implied : Bool × Bool :=
    if junction = some "roundabout" ∨ highway = some "motorway" then
      (true, false)
    else
      (true, true)
  let dr : Bool × Bool :=
    match oneway with
    | some "yes" | some "true" | some "1" => (true, false)
    | some "no" | some "false" | some "0" => (true, false)
    | some "-1" => (false, true)
    | _ => implied
  ⟨dr.1, dr.2⟩

/-! ## Helper lemmas for the serializer round trip -/

theorem compressDeltas_eq_none {l : List Int} : compressDeltas l = none ↔ l = [] := by
  cases l <;> simp [compressDeltas]

theorem compressDeltas_of_ne_nil {l : List Int} (h : l ≠ []) :
    ∃ c, compressDeltas l = some c := by
  cases l with
  | nil => exact absurd rfl h
  | cons v rest => exact ⟨_, rfl⟩

theorem sortedNodes_perm (g : SGraph) : (sortedNodes g).Perm (nodeTable g) :=
  List.perm_insertionSort _ _

theorem length_nodeTable (g : SGraph) : (nodeTable g).length = g.nodes.length := by
  simp [nodeTable]

theorem length_sortedNodes (g : SGraph) : (sortedNodes g).length = g.nodes.length := by
  rw [(sortedNodes_perm g).length_eq, length_nodeTable]

theorem mem_nodeTable_coords (g : SGraph) (t : SNode) (ht : t ∈ nodeTable g) :
    (t.lat, t.lon) ∈ g.nodes := by
  simp only [nodeTable, List.mem_map] at ht
  obtain ⟨p, hp, rfl⟩ := ht
  have : p.2 ∈ g.nodes.enum.map Prod.snd := List.mem_map_of_mem _ hp
  rwa [List.enum_map_snd] at this

theorem nodeTable_has_index (g : SGraph) (old : Nat) (h : old < g.nodes.length) :
    ∃ t ∈ nodeTable g, t.index = (old : Int) := by
  have hlen : old < g.nodes.enum.length := by simpa using h
  have hget : g.nodes.enum[old] = (old, g.nodes[old]) := List.getElem_enum _ _ _
  have hmem : (old, g.nodes[old]) ∈ g.nodes.enum := by
    rw [← hget]
    exact List.getElem_mem hlen
  exact ⟨⟨(old : Int), (g.nodes[old]).1, (g.nodes[old]).2⟩,
    List.mem_map.2 ⟨(old, g.nodes[old]), hmem, rfl⟩, rfl⟩

/-- The rank of old node index `old` in the sorted node table: the
permutation under which the artifact stores the graph. -/
def newIndex (g : SGraph) (old : Nat) : Nat :=
  (sortedNodes g).findIdx (fun t => t.index == (old : Int))

theorem nodeIndexMap_eq_newIndex (g : SGraph) (old : Nat)
    (h : old < g.nodes.length) :
    nodeIndexMap (sortedNodes g) (old : Int) = (newIndex g old : Int) ∧
      newIndex g old < g.nodes.length := by
  obtain ⟨t, ht, hidx⟩ := nodeTable_has_index g old h
  have hmem : t ∈ sortedNodes g := ((sortedNodes_perm g).mem_iff).2 ht
  have hex : ∃ u ∈ sortedNodes g, (fun t => t.index == (old : Int)) u := by
    exact ⟨t, hmem, by simp [hidx]⟩
  have hlt : (sortedNodes g).findIdx (fun t => t.index == (old : Int)) <
      (sortedNodes g).length := List.findIdx_lt_length_of_exists hex
  constructor
  · unfold nodeIndexMap newIndex
    rw [List.findIdx?_eq_some_iff_findIdx_eq.2 ⟨hlt, rfl⟩]
  · rw [← length_sortedNodes]
    exact hlt

instance : IsTotal SNode sNodeLe :=
  ⟨by intro a b; unfold sNodeLe; omega⟩

instance : IsTrans SNode sNodeLe :=
  ⟨by intro a b c; unfold sNodeLe; omega⟩

theorem sortedEdges_perm (g : SGraph) :
    (sortedEdges g).Perm (g.edges.map (remapEdge (sortedNodes g))) :=
  List.perm_insertionSort _ _

theorem length_sortedEdges (g : SGraph) : (sortedEdges g).length = g.edges.length := by
  rw [(sortedEdges_perm g).length_eq, List.length_map]

theorem i32AsUsize_ofNat (k : Nat) (h : k < 2 ^ 64) : i32AsUsize (k : Int) = k := by
  unfold i32AsUsize
  omega

theorem zip_map_pair {α β γ : Type} (l : List α) (f : α → β) (g : α → γ) :
    (l.map f).zip (l.map g) = l.map fun x => (f x, g x) :=
  List.zip_map' f g l

/-- How `Cartograph::open` turns one serialized edge record back into a
graph edge. -/
def readBackEdge (w : WEdge) : REdge :=
  ⟨i32AsUsize w.source, i32AsUsize w.target, u32ofI32 w.distance, u8ofI32 w.road_level⟩

/-- C1: serializing a graph with at least one node and at least one edge and
reading the artifact back yields the graph with nodes permuted into
`(lat, lon)` order: node `i` of the read graph is entry `i` of the sorted
node table (same micro-degree coordinates, and the table is sorted and is a
permutation of the original node table), and the read edges are, up to
order, the original edges with endpoints remapped through `newIndex` (the
rank in the sorted table), keeping distance and road level. The size and
range hypotheses state that every value fits the machine types used by the
file format (`u32` counts, `i32` columns, `u32` distance, `u8` road
level). -/
theorem serialize_open_roundtrip (g : SGraph)
    (hn : g.nodes ≠ []) (he : g.edges ≠ [])
    (hnum : g.nodes.length < 2 ^ 31) (henum : g.edges.length < 2 ^ 32)
    (hcoord : ∀ p ∈ g.nodes, inI32 p.1 ∧ inI32 p.2)
    (hedge : ∀ e ∈ g.edges, e.source < g.nodes.length ∧ e.target < g.nodes.length ∧
      0 ≤ e.distance ∧ e.distance < 2 ^ 32 ∧ 0 ≤ e.road_level ∧ e.road_level < 2 ^ 8) :
    ∃ f rg, serialize g = some f ∧ openFile f = some rg ∧
      rg.nodes = (sortedNodes g).map (fun t => (t.lat, t.lon)) ∧
      List.Pairwise sNodeLe (sortedNodes g) ∧
      (sortedNodes g).Perm (nodeTable g) ∧
      rg.edges.Perm (g.edges.map fun e =>
        REdge.mk (newIndex g e.source) (newIndex g e.target) e.distance e.road_level) := by
  have hsn : sortedNodes g ≠ [] := by
    intro hempty
    have h0 := length_sortedNodes g
    rw [hempty, List.length_nil] at h0
    exact hn (List.length_eq_zero.1 h0.symm)
  have hse : sortedEdges g ≠ [] := by
    intro hempty
    have h0 := length_sortedEdges g
    rw [hempty, List.length_nil] at h0
    exact he (List.length_eq_zero.1 h0.symm)
  -- every serialized edge record is in range
  have hmemW : ∀ w ∈ sortedEdges g, ∃ e ∈ g.edges, w = remapEdge (sortedNodes g) e := by
    intro w hw
    have := (sortedEdges_perm g).mem_iff.1 hw
    simpa [List.mem_map, eq_comm] using this
  have hWrange : ∀ w ∈ sortedEdges g,
      (∃ k : Nat, w.source = (k : Int) ∧ k < g.nodes.length) ∧
      (∃ k : Nat, w.target = (k : Int) ∧ k < g.nodes.length) ∧
      inI32 w.distance ∧ 0 ≤ w.road_level ∧ w.road_level < 2 ^ 8 := by
    intro w hw
    obtain ⟨e, hemem, rfl⟩ := hmemW w hw
    obtain ⟨hs, ht, _, _, hr1, hr2⟩ := hedge e hemem
    obtain ⟨hs1, hs2⟩ := nodeIndexMap_eq_newIndex g e.source hs
    obtain ⟨ht1, ht2⟩ := nodeIndexMap_eq_newIndex g e.target ht
    exact ⟨⟨newIndex g e.source, hs1, hs2⟩, ⟨newIndex g e.target, ht1, ht2⟩,
      wrap32_inI32 _, hr1, hr2⟩
  -- column contents are in the i32 range
  have hlatR : ∀ x ∈ (sortedNodes g).map (·.lat), inI32 x := by
    intro x hx
    obtain ⟨t, ht, rfl⟩ := List.mem_map.1 hx
    exact (hcoord _ (mem_nodeTable_coords g t ((sortedNodes_perm g).mem_iff.1 ht))).1
  have hlonR : ∀ x ∈ (sortedNodes g).map (·.lon), inI32 x := by
    intro x hx
    obtain ⟨t, ht, rfl⟩ := List.mem_map.1 hx
    exact (hcoord _ (mem_nodeTable_coords g t ((sortedNodes_perm g).mem_iff.1 ht))).2
  have hsrcR : ∀ x ∈ (sortedEdges g).map (·.source), inI32 x := by
    intro x hx
    obtain ⟨w, hw, rfl⟩ := List.mem_map.1 hx
    obtain ⟨⟨k, hk, hk2⟩, _, _, _⟩ := hWrange w hw
    rw [hk]
    exact ⟨by omega, by omega⟩
  have htgtR : ∀ x ∈ (sortedEdges g).map (·.target), inI32 x := by
    intro x hx
    obtain ⟨w, hw, rfl⟩ := List.mem_map.1 hx
    obtain ⟨_, ⟨k, hk, hk2⟩, _, _⟩ := hWrange w hw
    rw [hk]
    exact ⟨by omega, by omega⟩
  have hdistR : ∀ x ∈ (sortedEdges g).map (·.distance), inI32 x := by
    intro x hx
    obtain ⟨w, hw, rfl⟩ := List.mem_map.1 hx
    exact (hWrange w hw).2.2.1
  have hlvlR : ∀ x ∈ (sortedEdges g).map (·.road_level), inI32 x := by
    intro x hx
    obtain ⟨w, hw, rfl⟩ := List.mem_map.1 hx
    obtain ⟨_, _, _, h1, h2⟩ := hWrange w hw
    exact ⟨by omega, by omega⟩
  -- the six compressed columns exist
  obtain ⟨cLat, hcLat⟩ := compressDeltas_of_ne_nil
    (l := (sortedNodes g).map (·.lat)) (by simpa using hsn)
  obtain ⟨cLon, hcLon⟩ := compressDeltas_of_ne_nil
    (l := (sortedNodes g).map (·.lon)) (by simpa using hsn)
  obtain ⟨cSrc, hcSrc⟩ := compressDeltas_of_ne_nil
    (l := (sortedEdges g).map (·.source)) (by simpa using hse)
  obtain ⟨cTgt, hcTgt⟩ := compressDeltas_of_ne_nil
    (l := (sortedEdges g).map (·.target)) (by simpa using hse)
  obtain ⟨cDist, hcDist⟩ := compressDeltas_of_ne_nil
    (l := (sortedEdges g).map (·.distance)) (by simpa using hse)
  obtain ⟨cLvl, hcLvl⟩ := compressDeltas_of_ne_nil
    (l := (sortedEdges g).map (·.road_level)) (by simpa using hse)
  have hser : serialize g = some ⟨(g.nodes.length : Int) % 2 ^ 32,
      (g.edges.length : Int) % 2 ^ 32, cLat, cLon, cSrc, cTgt, cDist, cLvl⟩ := by
    simp [serialize, hcLat, hcLon, hcSrc, hcTgt, hcDist, hcLvl]
  -- the counts round-trip through the u32 header fields
  have hN : ((g.nodes.length : Int) % 2 ^ 32).toNat = g.nodes.length := by omega
  have hE : ((g.edges.length : Int) % 2 ^ 32).toNat = g.edges.length := by omega
  -- the six columns decode back to their contents
  have hdLat : decompressN g.nodes.length cLat = some ((sortedNodes g).map (·.lat)) := by
    have := decompressN_compressDeltas _ _ hlatR hcLat
    rwa [List.length_map, length_sortedNodes] at this
  have hdLon : decompressN g.nodes.length cLon = some ((sortedNodes g).map (·.lon)) := by
    have := decompressN_compressDeltas _ _ hlonR hcLon
    rwa [List.length_map, length_sortedNodes] at this
  have hdSrc : decompressN g.edges.length cSrc = some ((sortedEdges g).map (·.source)) := by
    have := decompressN_compressDeltas _ _ hsrcR hcSrc
    rwa [List.length_map, length_sortedEdges] at this
  have hdTgt : decompressN g.edges.length cTgt = some ((sortedEdges g).map (·.target)) := by
    have := decompressN_compressDeltas _ _ htgtR hcTgt
    rwa [List.length_map, length_sortedEdges] at this
  have hdDist : decompressN g.edges.length cDist = some ((sortedEdges g).map (·.distance)) := by
    have := decompressN_compressDeltas _ _ hdistR hcDist
    rwa [List.length_map, length_sortedEdges] at this
  have hdLvl : decompressN g.edges.length cLvl = some ((sortedEdges g).map (·.road_level)) := by
    have := decompressN_compressDeltas _ _ hlvlR hcLvl
    rwa [List.length_map, length_sortedEdges] at this
  -- evaluate the reader
  refine ⟨_, ⟨((sortedNodes g).map (·.lat)).zip ((sortedNodes g).map (·.lon)),
    (((((sortedEdges g).map (·.source)).zip ((sortedEdges g).map (·.target))).zip
        ((sortedEdges g).map (·.distance))).zip ((sortedEdges g).map (·.road_level))).map
      (fun p => REdge.mk (i32AsUsize p.1.1.1) (i32AsUsize p.1.1.2)
        (u32ofI32 p.1.2) (u8ofI32 p.2))⟩,
    hser, ?_, ?_, ?_, sortedNodes_perm g, ?_⟩
  · simp only [openFile, hN, hE, hdLat, hdLon, hdSrc, hdTgt, hdDist, hdLvl,
      Option.bind_eq_bind, Option.some_bind]
  · exact zip_map_pair _ _ _
  · exact List.sorted_insertionSort sNodeLe (nodeTable g)
  · -- the read edge list is the remapped original, up to order
    have hz : ((((sortedEdges g).map (·.source)).zip ((sortedEdges g).map (·.target))).zip
          ((sortedEdges g).map (·.distance))).zip ((sortedEdges g).map (·.road_level)) =
        (sortedEdges g).map fun w => (((w.source, w.target), w.distance), w.road_level) := by
      rw [zip_map_pair, zip_map_pair, zip_map_pair]
    show List.Perm (List.map _ _) _
    rw [hz, List.map_map]
    have hcomp : ((fun p => REdge.mk (i32AsUsize p.1.1.1) (i32AsUsize p.1.1.2)
        (u32ofI32 p.1.2) (u8ofI32 p.2)) ∘
        fun w : WEdge => (((w.source, w.target), w.distance), w.road_level)) = readBackEdge :=
      rfl
    rw [hcomp]
    have hperm : ((sortedEdges g).map readBackEdge).Perm
        ((g.edges.map (remapEdge (sortedNodes g))).map readBackEdge) :=
      (sortedEdges_perm g).map readBackEdge
    refine hperm.trans (List.Perm.of_eq ?_)
    rw [List.map_map]
    refine List.map_congr_left ?_
    intro e hemem
    obtain ⟨hs, ht, hd1, hd2, hr1, hr2⟩ := hedge e hemem
    obtain ⟨hs1, hs2⟩ := nodeIndexMap_eq_newIndex g e.source hs
    obtain ⟨ht1, ht2⟩ := nodeIndexMap_eq_newIndex g e.target ht
    show readBackEdge (remapEdge (sortedNodes g) e) = _
    unfold readBackEdge remapEdge
    simp only [hs1, ht1]
    congr 1
    · exact i32AsUsize_ofNat _ (by omega)
    · exact i32AsUsize_ofNat _ (by omega)
    · exact u32ofI32_wrap32 hd1 hd2
    · unfold u8ofI32
      omega

/-- Witness for the round-trip theorem at a concrete one-node, one-edge
graph. -/
theorem serialize_open_roundtrip_witness :
    ((⟨[(1, 2)], [⟨0, 0, 7, 3⟩]⟩ : SGraph).nodes ≠ [] ∧
      (⟨[(1, 2)], [⟨0, 0, 7, 3⟩]⟩ : SGraph).edges ≠ [] ∧
      (⟨[(1, 2)], [⟨0, 0, 7, 3⟩]⟩ : SGraph).nodes.length < 2 ^ 31 ∧
      (⟨[(1, 2)], [⟨0, 0, 7, 3⟩]⟩ : SGraph).edges.length < 2 ^ 32 ∧
      (∀ p ∈ (⟨[(1, 2)], [⟨0, 0, 7, 3⟩]⟩ : SGraph).nodes, inI32 p.1 ∧ inI32 p.2) ∧
      (∀ e ∈ (⟨[(1, 2)], [⟨0, 0, 7, 3⟩]⟩ : SGraph).edges,
        e.source < (⟨[(1, 2)], [⟨0, 0, 7, 3⟩]⟩ : SGraph).nodes.length ∧
        e.target < (⟨[(1, 2)], [⟨0, 0, 7, 3⟩]⟩ : SGraph).nodes.length ∧
        0 ≤ e.distance ∧ e.distance < 2 ^ 32 ∧
        0 ≤ e.road_level ∧ e.road_level < 2 ^ 8)) ∧
    ∃ f rg, serialize ⟨[(1, 2)], [⟨0, 0, 7, 3⟩]⟩ = some f ∧ openFile f = some rg ∧
      rg.nodes = (sortedNodes ⟨[(1, 2)], [⟨0, 0, 7, 3⟩]⟩).map (fun t => (t.lat, t.lon)) ∧
      List.Pairwise sNodeLe (sortedNodes ⟨[(1, 2)], [⟨0, 0, 7, 3⟩]⟩) ∧
      (sortedNodes ⟨[(1, 2)], [⟨0, 0, 7, 3⟩]⟩).Perm (nodeTable ⟨[(1, 2)], [⟨0, 0, 7, 3⟩]⟩) ∧
      rg.edges.Perm ((⟨[(1, 2)], [⟨0, 0, 7, 3⟩]⟩ : SGraph).edges.map fun e =>
        REdge.mk (newIndex ⟨[(1, 2)], [⟨0, 0, 7, 3⟩]⟩ e.source)
          (newIndex ⟨[(1, 2)], [⟨0, 0, 7, 3⟩]⟩ e.target) e.distance e.road_level) :=
  ⟨⟨by decide, by decide, by decide, by decide, by decide, by decide⟩,
    serialize_open_roundtrip ⟨[(1, 2)], [⟨0, 0, 7, 3⟩]⟩
      (by decide) (by decide) (by decide) (by decide) (by decide) (by decide)⟩

/-- C9: serializing a graph with no nodes or no edges panics (the first
value of an empty column iterator is unwrapped inside `compress`) instead of
producing an artifact or an `io::Result` error; `none` is that panic. -/
theorem serialize_empty_panics (g : SGraph) (h : g.nodes = [] ∨ g.edges = []) :
    serialize g = none := by
  rcases h with h | h
  · have hs : sortedNodes g = [] := by
      simp [sortedNodes, nodeTable, h]
    simp [serialize, hs, compressDeltas]
  · have hs : sortedEdges g = [] := by
      simp [sortedEdges, h]
    cases hlat : compressDeltas ((sortedNodes g).map (·.lat)) with
    | none => simp [serialize, hlat]
    | some lat =>
      cases hlon : compressDeltas ((sortedNodes g).map (·.lon)) with
      | none => simp [serialize, hlat, hlon]
      | some lon => simp [serialize, hs, hlat, hlon, compressDeltas]

/-- Witness for the empty-graph serialization panic at the empty graph. -/
theorem serialize_empty_panics_witness :
    ((⟨[], []⟩ : SGraph).nodes = [] ∨ (⟨[], []⟩ : SGraph).edges = []) ∧
      serialize ⟨[], []⟩ = none :=
  ⟨Or.inl rfl, serialize_empty_panics ⟨[], []⟩ (Or.inl rfl)⟩

/-- C4: the code maps an explicit `oneway=no`, `oneway=false` or `oneway=0`
tag to `(direct, reverse) = (true, false)` — forward-only, not the
bidirectional `(true, true)` the claim states. The last conjunct also shows
this is independent of `junction`/`highway` values on the same way. -/
theorem parse_oneway_explicit_no_is_forward_only :
    parse_oneway [("oneway", "no")] = ⟨true, false⟩ ∧
    parse_oneway [("oneway", "false")] = ⟨true, false⟩ ∧
    parse_oneway [("oneway", "0")] = ⟨true, false⟩ ∧
    parse_oneway [("oneway", "no"), ("junction", "roundabout")] = ⟨true, false⟩ ∧
    parse_oneway [("oneway", "no"), ("highway", "residential")] = ⟨true, false⟩ ∧
    parse_oneway [("oneway", "no")] ≠ ⟨true, true⟩ := by
  refine ⟨rfl, rfl, rfl, rfl, rfl, ?_⟩
  decide

/-! ## The cartograph runtime (cartograph.rs)

The loaded graph is petgraph `Graph<GeoPoint, EdgeInfo>`: node points in
index order and edges in index order. Floating-point values (Web-Mercator
projection, `f64` haversine, `f32` edge positions) and the external rstar
R-tree are kept behind the `Ext` oracle record below; the structure of the
Rust control flow, including every `unwrap()` panic, is modelled
explicitly, with `Except.error ()` marking a panic. -/

structure CEdge where
  source : Nat
  target : Nat
  /-- Value of `EdgeInfo.distance : u32`. -/
  distance : Nat
  /-- Value of `EdgeInfo.road_level : u8`. -/
  road_level : Nat
  deriving Repr, DecidableEq

structure CGraph where
  /-- Micro-degree `GeoPoint` of each graph node, in node-index order. -/
  nodes : List (Int × Int)
  edges : List CEdge
  deriving Repr, DecidableEq

/-- Modelled from the spec: the struct `ProjectedPoint { original, projected,
edge_id, edge_pos }` consumed and produced by cartograph.rs; its defining
module is one of the historical `data_types.rs` variants missing from the
sources. `edge_pos` is the value of the `f32` ratio field, modelled as a
rational. -/
structure ProjectedPoint where
  original : Int × Int
  projected : Int × Int
  edge : Nat
  edge_pos : ℚ

/-- Modelled from the spec: `GraphPath { distance, points }` as built by
`GraphPath::new(distance, points)`. -/
structure GraphPath where
  distance : Nat
  points : List (Int × Int)

/-- The external, floating-point-valued collaborators of cartograph.rs,
bundled as oracles with only their documented properties:
`nearest` is the composition of `web_mercator_project`, rstar
`nearest_neighbor` over the per-edge R-tree elements, `nearest_point` and
`from_web_mercator` (it yields the chosen edge id and the projected point);
rstar documents that `nearest_neighbor` returns `None` exactly on an empty
tree, and otherwise an element of the tree. `edgePos` is the `f32`
`edge_pos` ratio, `fracStart`/`fracEnd` the `(distance as f32 * _) as u32`
corrections, `hvU32` the `haversine_distance(..) as u32` heuristic, and
`astarOut` the cost/path pair petgraph `astar` yields when a path exists. -/
structure Ext where
  nearest : List Nat → (Int × Int) → Option (Nat × (Int × Int))
  nearest_none : ∀ l q, nearest l q = none ↔ l = []
  nearest_mem : ∀ l q e p, nearest l q = some (e, p) → e ∈ l
  edgePos : (Int × Int) → (Int × Int) → (Int × Int) → ℚ
  fracStart : Nat → ℚ → Nat
  fracEnd : Nat → ℚ → Nat
  hvU32 : (Int × Int) → (Int × Int) → Nat
  astarOut : CGraph → Nat → Nat → Nat × List Nat

/-- The R-tree contents built by `Cartograph::open`: one line element per
edge index. -/
def rtreeElems (c : CGraph) : List Nat :=
  List.range c.edges.length

/-- Nearest-edge projection, from `Cartograph::project` in cartograph.rs.
The source unwraps `nearest_neighbor` (panic on an empty tree) and
`edge_endpoints`/`graph[..]` lookups (panic on invalid indices);
`Except.error ()` marks those panics. -/
def project (x : Ext) (c : CGraph) (pt : Int × Int) : Except Unit ProjectedPoint :=
  match x.nearest (rtreeElems c) pt with
  | none => .error ()
  | some (eidx, proj) =>
    match c.edges[eidx]? with
    | none => .error ()
    | some e =>
      match c.nodes[e.source]?, c.nodes[e.target]? with
      | some s, some t => .ok ⟨pt, proj, eidx, x.edgePos proj s t⟩
      | _, _ => .error ()

/-- Successors of a node along directed edges. -/
def succs (c : CGraph) (u : Nat) : List Nat :=
  (c.edges.filter (fun e => e.source == u)).map (·.target)

/-- One round of reachability expansion. -/
def expand (c : CGraph) (s : List Nat) : List Nat :=
  (s ++ s.flatMap (succs c)).dedup

/-- All nodes reachable from `s` (fixed point is reached after at most
`nodes.length` rounds). -/
def reachSet (c : CGraph) (s : Nat) : List Nat :=
  (expand c)^[c.nodes.length] [s]

/-- Decidable reachability along directed edges. -/
def reachesB (c : CGraph) (s t : Nat) : Bool :=
  t ∈ reachSet c s

/-- Modelled from the documented behaviour of petgraph `astar`: the search
returns `None` exactly when no path from `s` to `t` exists; the cost and
node path on success depend on the floating-point heuristic and come from
the oracle. -/
def astarModel (x : Ext) (c : CGraph) (s t : Nat) : Option (Nat × List Nat) :=
  if reachesB c s t then some (x.astarOut c s t) else none

/-- Single-target shortest path, from `Cartograph::shortest_path` in
cartograph.rs: `edge_endpoints(..).unwrap()` on both projected edges, the
`astar(..).unwrap()` (panic when the search finds no path), then the
point list and the start/end edge-offset corrections. -/
def shortest_path (x : Ext) (c : CGraph) (fromP toP : ProjectedPoint) :
    Except Unit GraphPath :=
  match c.edges[fromP.edge]?, c.edges[toP.edge]? with
  | some ef, some et =>
    match astarModel x c ef.target et.source with
    | none => .error ()
    | some (dist, nodes) =>
      match nodes.mapM (fun n => c.nodes[n]?) with
      | none => .error ()
      | some pts =>
        let extraStart := x.fracStart ef.distance fromP.edge_pos
        let extraEnd := x.fracEnd et.distance toP.edge_pos
        .ok ⟨dist + extraStart + extraEnd,
          fromP.projected :: pts ++ [toP.projected]⟩
  | _, _ => .error ()

/-! ### Multi-target search (Cartograph::shortest_path_multi) -/

/-- One entry of `remaining_ends`: `(i, extra_end_cost, end_node,
end_node_point)`. -/
structure RemEnd where
  idx : Nat
  extraEnd : Nat
  endNode : Nat
  endPt : Int × Int

/-- Build `remaining_ends` from the target list: for each target,
`edge_endpoints(to.edge).unwrap().0` and the `graph[..]` point lookup
(panics on invalid indices give `none`). -/
def buildRemaining (x : Ext) (c : CGraph) (tos : List ProjectedPoint) :
    Option (List RemEnd) :=
  tos.enum.mapM fun p => do
    let e ← c.edges[p.2.edge]?
    let pt ← c.nodes[e.source]?
    pure ⟨p.1, x.fracEnd e.distance p.2.edge_pos, e.source, pt⟩

/-- The heuristic of the multi-target search, from the local fn
`estimate_cost`: minimum over the remaining targets of the `u32` haversine
to the target point, `.min().unwrap()`. `none` is the panic: an empty
`remaining_ends` (or an invalid node index in the `graph[node]` lookup). -/
def estimateCost (x : Ext) (c : CGraph) (remaining : List RemEnd) (node : Nat) :
    Option Nat :=
  match c.nodes[node]? with
  | none => none
  | some p => (remaining.map fun r => x.hvU32 p r.endPt).min?

/-- Lexicographic comparison on `(estimate, node)` pairs: the order of
`BinaryHeap<Reverse<(u32, NodeIndex)>>`. -/
def pairLtB (a b : Nat × Nat) : Bool :=
  a.1 < b.1 || (a.1 == b.1 && a.2 < b.2)

/-- Pop the minimal `(estimate, node)` pair, as the reversed binary heap
does. -/
def popMin (heap : List (Nat × Nat)) : Option ((Nat × Nat) × List (Nat × Nat)) :=
  match heap with
  | [] => none
  | h :: t =>
    let m := t.foldl (fun acc q => if pairLtB q acc then q else acc) h
    some (m, heap.erase m)

/-- Record a score in the `scores` hash map. -/
def setScore (scores : List (Nat × Nat)) (k v : Nat) : List (Nat × Nat) :=
  (k, v) :: scores.filter (fun q => q.1 ≠ k)

/-- Outgoing edges of a node in iteration order: petgraph returns a node's
outgoing edges most-recently-added first. -/
def outEdges (c : CGraph) (node : Nat) : List CEdge :=
  (c.edges.filter (fun e => e.source == node)).reverse

/-- The edge-relaxation body of the multi-target search loop: for each
outgoing edge, skip visited targets, improve the score map, and push the
new estimate (whose `estimate_cost` call can panic only on an invalid node
index, since `remaining` is non-empty whenever this runs). -/
def relaxEdges (x : Ext) (c : CGraph) (remaining : List RemEnd)
    (visited : List Nat) (nodeScore : Nat) :
    List CEdge → List (Nat × Nat) → List (Nat × Nat) →
    Except Unit (List (Nat × Nat) × List (Nat × Nat))
  | [], scores, heap => .ok (scores, heap)
  | e :: rest, scores, heap =>
    if e.target ∈ visited then
      relaxEdges x c remaining visited nodeScore rest scores heap
    else
      let cand := nodeScore + e.distance
      let (scores1, nextScore) :=
        match scores.lookup e.target with
        | some old => if cand < old then (setScore scores e.target cand, cand)
                      else (scores, old)
        | none => (setScore scores e.target cand, cand)
      match estimateCost x c remaining e.target with
      | none => .error ()
      | some h =>
        relaxEdges x c remaining visited nodeScore rest scores1
          ((nextScore + h, e.target) :: heap)

/-- The main loop of `shortest_path_multi`, fuelled (the fuel bound chosen
by the caller exceeds the number of possible heap pushes, but no claim
below depends on that). -/
def multiLoop (x : Ext) (c : CGraph) (extraStart : Nat) :
    Nat → List RemEnd → List Nat → List Nat → List (Nat × Nat) →
    List (Nat × Nat) → Except Unit (List Nat)
  | 0, _, _, _, _, _ => .error ()
  | _ + 1, remaining, finalCosts, visited, scores, heap =>
    match popMin heap with
    | none => .ok finalCosts
    | some ((_, node), heap1) =>
      -- the inner while-let: remove every remaining end matching `node`,
      -- recording extra_start + scores[&node] + extra_end for each
      let matched := remaining.filter (fun r => r.endNode == node)
      let remaining1 := remaining.filter (fun r => r.endNode != node)
      match matched with
      | [] =>
        multiStep x c extraStart 0 remaining finalCosts visited scores heap1 node
      | _ :: _ =>
        match scores.lookup node with
        | none => .error ()
        | some cost =>
          let finalCosts1 := matched.foldl
            (fun fc r => fc.set r.idx (extraStart + cost + r.extraEnd)) finalCosts
          if remaining1.isEmpty then .ok finalCosts1
          else
            multiStep x c extraStart 0 remaining1 finalCosts1 visited scores heap1 node
where
  /-- The tail of one loop iteration: the visited check, the score lookup
  and the edge relaxation. -/
  multiStep (x : Ext) (c : CGraph) (extraStart : Nat) (fuel : Nat)
      (remaining : List RemEnd) (finalCosts : List Nat) (visited : List Nat)
      (scores : List (Nat × Nat)) (heap : List (Nat × Nat)) (node : Nat) :
      Except Unit (List Nat) :=
    if node ∈ visited then
      multiLoop x c extraStart fuel remaining finalCosts visited scores heap
    else
      match scores.lookup node with
      | none => .error ()
      | some nodeScore =>
        match relaxEdges x c remaining (node :: visited) nodeScore
            (outEdges c node) scores heap with
        | .error e => .error e
        | .ok (scores1, heap1) =>
          multiLoop x c extraStart fuel remaining finalCosts (node :: visited)
            scores1 heap1

/-- Multi-target shortest-path distances, from
`Cartograph::shortest_path_multi` in cartograph.rs: the starting-edge
lookup, `remaining_ends`, `final_costs = vec![0; to.len()]`, the initial
`scores.insert` and heap push — whose `estimate_cost(..).min().unwrap()`
panics when `to` is empty — then the search loop. -/
def shortest_path_multi (x : Ext) (c : CGraph) (fromP : ProjectedPoint)
    (tos : List ProjectedPoint) : Except Unit (List Nat) :=
  match c.edges[fromP.edge]? with
  | none => .error ()
  | some ef =>
    let startNode := ef.target
    let extraStart := x.fracStart ef.distance fromP.edge_pos
    match buildRemaining x c tos with
    | none => .error ()
    | some remaining =>
      let finalCosts := List.replicate tos.length 0
      match estimateCost x c remaining startNode with
      | none => .error ()
      | some est =>
        multiLoop x c extraStart (c.edges.length * c.edges.length + c.edges.length + 2)
          remaining finalCosts [] [(startNode, 0)] [(est, startNode)]

/-- A concrete oracle instance used to evaluate the runtime on explicit
inputs: the nearest neighbour is the first tree element and all
floating-point-valued oracles return zero. -/
def trivialExt : Ext where
  nearest := fun l q => l.head?.map (fun e => (e, q))
  nearest_none := by
    intro l q
    cases l <;> simp
  nearest_mem := by
    intro l q e p h
    cases l with
    | nil => simp at h
    | cons a t =>
      simp only [List.head?_cons, Option.map_some] at h
      obtain ⟨rfl, -⟩ := Prod.mk.injEq .. ▸ (Option.some.injEq _ _ ▸ h)
      exact List.mem_cons_self _ _
  edgePos := fun _ _ _ => 0
  fracStart := fun _ _ => 0
  fracEnd := fun _ _ => 0
  hvU32 := fun _ _ => 0
  astarOut := fun _ _ _ => (0, [])

/-- Counterexample to C5 as stated: on the empty cartograph, `project` hits
`nearest_neighbor(..).unwrap()` on `None` and panics instead of returning
an absent result. -/
theorem project_empty_graph_panics_cex :
    project trivialExt ⟨[], []⟩ (0, 0) = Except.error () := rfl

/-- C5 (amended): on an empty graph `project` panics (it unwraps the
`None` returned by `nearest_neighbor` on the empty R-tree), and
`shortest_path` panics when the graph has no path from the start edge's
target endpoint to the end edge's source endpoint (it unwraps the `None`
returned by `astar`); neither surfaces absence as a result. -/
theorem project_and_shortest_path_panic :
    (∀ (x : Ext) (c : CGraph) (pt : Int × Int), c.edges = [] →
      project x c pt = Except.error ()) ∧
    (∀ (x : Ext) (c : CGraph) (fromP toP : ProjectedPoint) (ef et : CEdge),
      c.edges[fromP.edge]? = some ef → c.edges[toP.edge]? = some et →
      reachesB c ef.target et.source = false →
      shortest_path x c fromP toP = Except.error ()) := by
  constructor
  · intro x c pt h
    have hr : rtreeElems c = [] := by simp [rtreeElems, h]
    have hn := (x.nearest_none (rtreeElems c) pt).2 hr
    simp only [project, hn]
  · intro x c fromP toP ef et hf ht hnr
    simp only [shortest_path, hf, ht, astarModel, hnr, Bool.false_eq_true, if_false]

/-- Witness for the amended C5 at explicit inputs: the empty cartograph for
`project`, and a one-edge cartograph whose start endpoint cannot reach its
end endpoint for `shortest_path`. -/
theorem project_and_shortest_path_panic_witness :
    ((⟨[], []⟩ : CGraph).edges = [] ∧
      project trivialExt ⟨[], []⟩ (0, 0) = Except.error ()) ∧
    ((⟨[(0, 0), (1, 1)], [⟨1, 0, 1, 0⟩]⟩ : CGraph).edges[(0 : Nat)]? =
        some ⟨1, 0, 1, 0⟩ ∧
      reachesB ⟨[(0, 0), (1, 1)], [⟨1, 0, 1, 0⟩]⟩ 0 1 = false ∧
      shortest_path trivialExt ⟨[(0, 0), (1, 1)], [⟨1, 0, 1, 0⟩]⟩
        ⟨(0, 0), (0, 0), 0, 0⟩ ⟨(0, 0), (0, 0), 0, 0⟩ = Except.error ()) :=
  ⟨⟨rfl, project_and_shortest_path_panic.1 trivialExt ⟨[], []⟩ (0, 0) rfl⟩,
    ⟨rfl, by decide,
      project_and_shortest_path_panic.2 trivialExt ⟨[(0, 0), (1, 1)], [⟨1, 0, 1, 0⟩]⟩
        ⟨(0, 0), (0, 0), 0, 0⟩ ⟨(0, 0), (0, 0), 0, 0⟩ ⟨1, 0, 1, 0⟩ ⟨1, 0, 1, 0⟩
        rfl rfl (by decide)⟩⟩

/-- C10: with an empty target list, `shortest_path_multi` panics before the
search loop starts: the initial heap push evaluates the heuristic
`estimate_cost`, which takes `.min().unwrap()` over the empty set of
remaining targets. The hypothesis says the source point is projected onto a
real edge of the graph. -/
theorem shortest_path_multi_empty_targets_panics (x : Ext) (c : CGraph)
    (fromP : ProjectedPoint) (h : fromP.edge < c.edges.length) :
    shortest_path_multi x c fromP [] = Except.error () := by
  obtain ⟨ef, hef⟩ : ∃ ef, c.edges[fromP.edge]? = some ef :=
    ⟨_, List.getElem?_eq_getElem h⟩
  have hrem : buildRemaining x c [] = some [] := rfl
  have hest : estimateCost x c [] ef.target = none := by
    unfold estimateCost
    cases c.nodes[ef.target]? <;> simp
  simp only [shortest_path_multi, hef, hrem, hest]

/-- Witness for the empty-target panic at a concrete one-edge cartograph. -/
theorem shortest_path_multi_empty_targets_panics_witness :
    (⟨(0, 0), (0, 0), 0, 0⟩ : ProjectedPoint).edge <
      (⟨[(0, 0)], [⟨0, 0, 1, 5⟩]⟩ : CGraph).edges.length ∧
    shortest_path_multi trivialExt ⟨[(0, 0)], [⟨0, 0, 1, 5⟩]⟩
      ⟨(0, 0), (0, 0), 0, 0⟩ [] = Except.error () :=
  ⟨by decide,
    shortest_path_multi_empty_targets_panics trivialExt ⟨[(0, 0)], [⟨0, 0, 1, 5⟩]⟩
      ⟨(0, 0), (0, 0), 0, 0⟩ (by decide)⟩

/-! ## The sampler (cartograph/sampler.rs)

Items are generic over `I: Hash`; the 64-bit value std's `DefaultHasher`
assigns to an item is external (SipHash over the item's bytes), so it
enters the model as a hash oracle `h`. `Sampler::update`'s inner `while`
loop raises the mask one bit per round; in Rust the `u64` mask saturates at
all-ones, after which the loop either exits or spins forever — the model
gives the loop 100 rounds of fuel (enough to reach and test the saturated
mask for 64-bit hashes) and returns `none` where the Rust loop diverges. -/

structure SamplerState (α : Type) where
  result : List (α × Nat)
  max_num : Nat
  hash_mask : Nat
  len : Nat

/-- Fresh sampler, from `Sampler::new`. -/
def samplerNew (α : Type) (maxNum : Nat) : SamplerState α := ⟨[], maxNum, 0, 0⟩

/-- One mask raise plus retain, from the loop body of `Sampler::update`. -/
def raiseMask {α : Type} (st : SamplerState α) : SamplerState α :=
  let m := 2 * st.hash_mask + 1
  ⟨st.result.filter (fun q => q.2 &&& m == 0), st.max_num, m, st.len⟩

/-- The `while self.result.len() == self.max_num` loop of `Sampler::update`
and `Sampler::resample`. -/
def raiseLoop {α : Type} : Nat → SamplerState α → Option (SamplerState α)
  | 0, st => if st.result.length == st.max_num then none else some st
  | fuel + 1, st =>
    if st.result.length == st.max_num then raiseLoop fuel (raiseMask st)
    else some st

/-- Insert one element, from `Sampler::update`. -/
def samplerUpdate {α : Type} (h : α → Nat) (st : SamplerState α) (el : α) :
    Option (SamplerState α) := do
  let hash := h el
  let st1 ←
    if hash &&& st.hash_mask == 0 then do
      let st2 ← raiseLoop 100 st
      pure (if hash &&& st2.hash_mask == 0 then
        { st2 with result := st2.result ++ [(el, hash)] } else st2)
    else pure st
  pure { st1 with len := st1.len + 1 }

/-- The kept items, from `Sampler::finish`. -/
def samplerFinish {α : Type} (st : SamplerState α) : List α :=
  st.result.map (·.1)

/-- The `Sample::sample` trait method: feed the whole stream through
`update`, then `finish`. -/
def sample {α : Type} (h : α → Nat) (stream : List α) (maxNum : Nat) :
    Option (List α) :=
  (stream.foldlM (samplerUpdate h) (samplerNew α maxNum)).map samplerFinish

/-- C6: the sampler is not order-invariant. With capacity 1 and two items
whose hashes are 1 and 2 (any items whose `DefaultHasher` values have these
low bits behave identically, and the hash oracle here is `n + 1` on the
items `0` and `1`), the stream `[0, 1]` keeps item `1` while the reversed
stream `[1, 0]` keeps nothing, so the returned set depends on stream
order. -/
theorem sample_order_dependent :
    sample (fun n => n + 1) [0, 1] 1 = some [1] ∧
    sample (fun n => n + 1) [1, 0] 1 = some [] ∧
    sample (fun n => n + 1) [0, 1] 1 ≠ sample (fun n => n + 1) [1, 0] 1 := by
  refine ⟨?_, ?_, ?_⟩ <;> decide

/-! ## The junction classifier (generator/data_types/junction.rs)

`JunctionsBuilder` keeps two disk-backed bitmaps indexed by node offset;
they are modelled as boolean functions of the offset (the id-to-offset
translation `nodes.offset(id).unwrap()` is the node store's, claim C7).
`merge` is a byte loop over the packed bitmaps; bytewise `|`, `&`, `!`
act bit-per-bit, so it is modelled at a single offset. -/

structure JunctionsBuilder where
  junctions : Nat → Bool
  internals : Nat → Bool

/-- Fresh builder: both bitmaps zeroed, from `JunctionsBuilder::new`. -/
def jbNew : JunctionsBuilder := ⟨fun _ => false, fun _ => false⟩

/-- From `JunctionsBuilder::push_junction`. -/
def push_junction (b : JunctionsBuilder) (o : Nat) : JunctionsBuilder :=
  if b.junctions o then b
  else ⟨Function.update b.junctions o true, Function.update b.internals o false⟩

/-- From `JunctionsBuilder::push_internal`. -/
def push_internal (b : JunctionsBuilder) (o : Nat) : JunctionsBuilder :=
  if b.junctions o then b
  else if b.internals o then
    ⟨Function.update b.junctions o true, Function.update b.internals o false⟩
  else ⟨b.junctions, Function.update b.internals o true⟩

/-- One recorded call against one builder. -/
inductive JPush where
  | junction (o : Nat)
  | internal (o : Nat)
  deriving DecidableEq

def applyPush (b : JunctionsBuilder) : JPush → JunctionsBuilder
  | .junction o => push_junction b o
  | .internal o => push_internal b o

def applyPushes (ops : List JPush) : JunctionsBuilder :=
  ops.foldl applyPush jbNew

/-- From `JunctionsBuilder::merge`: `self_jun` is updated first and the new
value feeds the `self_int` update. -/
def jbMerge (a b : JunctionsBuilder) : JunctionsBuilder :=
  ⟨fun o => a.junctions o || b.junctions o || (a.internals o && b.internals o),
    fun o => !(a.junctions o || b.junctions o || (a.internals o && b.internals o)) &&
      (a.internals o || b.internals o)⟩

/-- Merge a list of builders into the first, as the parallel reduction
does. -/
def jbMergeAll : List JunctionsBuilder → JunctionsBuilder
  | [] => jbNew
  | b :: rest => rest.foldl jbMerge b

/-- Number of `push_junction o` calls in a list of operations. -/
def countJ (ops : List JPush) (o : Nat) : Nat :=
  ops.countP (· = .junction o)

/-- Number of `push_internal o` calls in a list of operations. -/
def countI (ops : List JPush) (o : Nat) : Nat :=
  ops.countP (· = .internal o)

/-- The per-offset characterization invariant: the two bits encode whether
the totals so far reach one junction push or two internal pushes. -/
def JInv (b : JunctionsBuilder) (o : Nat) (J I : Nat) : Prop :=
  (b.junctions o = true ↔ 1 ≤ J ∨ 2 ≤ I) ∧
  (b.internals o = true ↔ J = 0 ∧ I = 1)

theorem jInv_new (o : Nat) : JInv jbNew o 0 0 := by
  constructor <;> simp [jbNew]

theorem jInv_push_junction {b : JunctionsBuilder} {o : Nat} {J I : Nat}
    (h : JInv b o J I) : JInv (push_junction b o) o (J + 1) I := by
  obtain ⟨hj, hi⟩ := h
  unfold push_junction
  by_cases hb : b.junctions o = true
  · rw [if_pos hb]
    refine ⟨⟨fun _ => Or.inl (by omega), fun _ => hb⟩, ⟨fun hint => ?_, fun hJI => ?_⟩⟩
    · have h1 := hi.1 hint
      have h2 := hj.1 hb
      omega
    · omega
  · rw [if_neg hb]
    constructor
    · rw [show (JunctionsBuilder.mk (Function.update b.junctions o true)
        (Function.update b.internals o false)).junctions o = true from
        Function.update_same o true b.junctions]
      exact ⟨fun _ => Or.inl (by omega), fun _ => rfl⟩
    · rw [show (JunctionsBuilder.mk (Function.update b.junctions o true)
        (Function.update b.internals o false)).internals o = false from
        Function.update_same o false b.internals]
      exact ⟨fun hfalse => absurd hfalse Bool.false_ne_true, fun hJI => by omega⟩

theorem jInv_push_internal {b : JunctionsBuilder} {o : Nat} {J I : Nat}
    (h : JInv b o J I) : JInv (push_internal b o) o J (I + 1) := by
  obtain ⟨hj, hi⟩ := h
  unfold push_internal
  by_cases hb : b.junctions o = true
  · rw [if_pos hb]
    have hJI := hj.1 hb
    refine ⟨⟨fun _ => by omega, fun _ => hb⟩, ⟨fun hint => ?_, fun hc => ?_⟩⟩
    · have h1 := hi.1 hint
      omega
    · omega
  · rw [if_neg hb]
    have hnj : ¬(1 ≤ J ∨ 2 ≤ I) := fun hc => hb (hj.2 hc)
    by_cases hbi : b.internals o = true
    · rw [if_pos hbi]
      have hJI := hi.1 hbi
      constructor
      · rw [show (JunctionsBuilder.mk (Function.update b.junctions o true)
          (Function.update b.internals o false)).junctions o = true from
          Function.update_same o true b.junctions]
        exact ⟨fun _ => by omega, fun _ => rfl⟩
      · rw [show (JunctionsBuilder.mk (Function.update b.junctions o true)
          (Function.update b.internals o false)).internals o = false from
          Function.update_same o false b.internals]
        exact ⟨fun hfalse => absurd hfalse Bool.false_ne_true, fun hc => by omega⟩
    · rw [if_neg hbi]
      have hI0 : ¬(J = 0 ∧ I = 1) := fun hc => hbi (hi.2 hc)
      constructor
      · exact ⟨fun hc => absurd (hj.1 hc) hnj, fun hc => absurd hc (by omega)⟩
      · rw [show (JunctionsBuilder.mk b.junctions
          (Function.update b.internals o true)).internals o = true from
          Function.update_same o true b.internals]
        exact ⟨fun _ => by omega, fun _ => rfl⟩

theorem jInv_push_other {b : JunctionsBuilder} {o : Nat} {J I : Nat}
    (h : JInv b o J I) (p : JPush) (hp1 : p ≠ .junction o) (hp2 : p ≠ .internal o) :
    JInv (applyPush b p) o J I := by
  obtain ⟨hj, hi⟩ := h
  cases p with
  | junction o2 =>
    have ho2 : o2 ≠ o := fun hc => hp1 (by rw [hc])
    show JInv (push_junction b o2) o J I
    unfold push_junction
    by_cases hb : b.junctions o2 = true
    · rw [if_pos hb]
      exact ⟨hj, hi⟩
    · rw [if_neg hb]
      constructor
      · rw [show (JunctionsBuilder.mk (Function.update b.junctions o2 true)
          (Function.update b.internals o2 false)).junctions o = b.junctions o from
          Function.update_noteq (Ne.symm ho2) true b.junctions]
        exact hj
      · rw [show (JunctionsBuilder.mk (Function.update b.junctions o2 true)
          (Function.update b.internals o2 false)).internals o = b.internals o from
          Function.update_noteq (Ne.symm ho2) false b.internals]
        exact hi
  | internal o2 =>
    have ho2 : o2 ≠ o := fun hc => hp2 (by rw [hc])
    show JInv (push_internal b o2) o J I
    unfold push_internal
    by_cases hb : b.junctions o2 = true
    · rw [if_pos hb]
      exact ⟨hj, hi⟩
    · rw [if_neg hb]
      by_cases hbi : b.internals o2 = true
      · rw [if_pos hbi]
        constructor
        · rw [show (JunctionsBuilder.mk (Function.update b.junctions o2 true)
            (Function.update b.internals o2 false)).junctions o = b.junctions o from
            Function.update_noteq (Ne.symm ho2) true b.junctions]
          exact hj
        · rw [show (JunctionsBuilder.mk (Function.update b.junctions o2 true)
            (Function.update b.internals o2 false)).internals o = b.internals o from
            Function.update_noteq (Ne.symm ho2) false b.internals]
          exact hi
      · rw [if_neg hbi]
        constructor
        · exact hj
        · rw [show (JunctionsBuilder.mk b.junctions
            (Function.update b.internals o2 true)).internals o = b.internals o from
            Function.update_noteq (Ne.symm ho2) true b.internals]
          exact hi

theorem jInv_applyPushes (ops : List JPush) (o : Nat) (b : JunctionsBuilder)
    (J I : Nat) (h : JInv b o J I) :
    JInv (ops.foldl applyPush b) o (J + countJ ops o) (I + countI ops o) := by
  induction ops generalizing b J I with
  | nil => simpa [countJ, countI] using h
  | cons p rest ih =>
    rw [List.foldl_cons]
    by_cases hpj : p = JPush.junction o
    · subst hpj
      have h2 := ih _ _ _ (jInv_push_junction h)
      have e1 : countJ (JPush.junction o :: rest) o = countJ rest o + 1 := by
        simp [countJ, List.countP_cons]
      have e2 : countI (JPush.junction o :: rest) o = countI rest o := by
        simp [countI, List.countP_cons]
      rw [e1, e2, show J + (countJ rest o + 1) = J + 1 + countJ rest o by omega]
      exact h2
    · by_cases hpi : p = JPush.internal o
      · subst hpi
        have h2 := ih _ _ _ (jInv_push_internal h)
        have e1 : countJ (JPush.internal o :: rest) o = countJ rest o := by
          simp [countJ, List.countP_cons]
        have e2 : countI (JPush.internal o :: rest) o = countI rest o + 1 := by
          simp [countI, List.countP_cons]
        rw [e1, e2, show I + (countI rest o + 1) = I + 1 + countI rest o by omega]
        exact h2
      · have h2 := ih _ _ _ (jInv_push_other h p hpj hpi)
        have e1 : countJ (p :: rest) o = countJ rest o := by
          simp [countJ, List.countP_cons, hpj]
        have e2 : countI (p :: rest) o = countI rest o := by
          simp [countI, List.countP_cons, hpi]
        rw [e1, e2]
        exact h2

theorem jInv_applyPushes_base (ops : List JPush) (o : Nat) :
    JInv (applyPushes ops) o (countJ ops o) (countI ops o) := by
  have := jInv_applyPushes ops o jbNew 0 0 (jInv_new o)
  simpa [applyPushes] using this

theorem jInv_merge {a b : JunctionsBuilder} {o : Nat} {J1 I1 J2 I2 : Nat}
    (ha : JInv a o J1 I1) (hb : JInv b o J2 I2) :
    JInv (jbMerge a b) o (J1 + J2) (I1 + I2) := by
  obtain ⟨ha1, ha2⟩ := ha
  obtain ⟨hb1, hb2⟩ := hb
  unfold JInv jbMerge
  cases hx1 : a.junctions o <;> cases hx2 : b.junctions o <;>
    cases hx3 : a.internals o <;> cases hx4 : b.internals o <;>
    simp_all <;> omega

theorem jInv_foldl_merge (rest : List (List JPush)) (b : JunctionsBuilder)
    (o J I : Nat) (h : JInv b o J I) :
    JInv ((rest.map applyPushes).foldl jbMerge b) o
      (J + countJ rest.flatten o) (I + countI rest.flatten o) := by
  induction rest generalizing b J I with
  | nil => simpa [countJ, countI] using h
  | cons ops rest ih =>
    rw [List.map_cons, List.foldl_cons]
    have h2 := ih _ _ _ (jInv_merge h (jInv_applyPushes_base ops o))
    have e1 : countJ (ops :: rest).flatten o = countJ ops o + countJ rest.flatten o := by
      simp [countJ, List.countP_append]
    have e2 : countI (ops :: rest).flatten o = countI ops o + countI rest.flatten o := by
      simp [countI, List.countP_append]
    rw [e1, e2, show J + (countJ ops o + countJ rest.flatten o) =
      J + countJ ops o + countJ rest.flatten o by omega,
      show I + (countI ops o + countI rest.flatten o) =
      I + countI ops o + countI rest.flatten o by omega]
    exact h2

/-- C8: after any number of `push_junction`/`push_internal` calls spread
over any number of builders that are then merged, the node at offset `o` is
classified Junction (`junctions` bit set) iff a `push_junction o` was
issued somewhere or at least two `push_internal o` were issued in total;
it is Internal (`internals` bit set, which `build` does not report as a
junction) iff no `push_junction o` and exactly one `push_internal o` was
issued; and it is Unused (neither bit) iff no call mentioned it. -/
theorem junction_classifier_counts (builders : List (List JPush)) (o : Nat) :
    ((jbMergeAll (builders.map applyPushes)).junctions o = true ↔
      1 ≤ countJ builders.flatten o ∨ 2 ≤ countI builders.flatten o) ∧
    ((jbMergeAll (builders.map applyPushes)).internals o = true ↔
      countJ builders.flatten o = 0 ∧ countI builders.flatten o = 1) ∧
    (((jbMergeAll (builders.map applyPushes)).junctions o = false ∧
      (jbMergeAll (builders.map applyPushes)).internals o = false) ↔
      countJ builders.flatten o = 0 ∧ countI builders.flatten o = 0) := by
  cases builders with
  | nil =>
    refine ⟨?_, ?_, ?_⟩ <;> simp [jbMergeAll, jbNew, countJ, countI]
  | cons ops rest =>
    have hbase := jInv_applyPushes_base ops o
    have h2 := jInv_foldl_merge rest (applyPushes ops) o _ _ hbase
    have e1 : countJ (ops :: rest).flatten o = countJ ops o + countJ rest.flatten o := by
      simp [countJ, List.countP_append]
    have e2 : countI (ops :: rest).flatten o = countI ops o + countI rest.flatten o := by
      simp [countI, List.countP_append]
    have hm : jbMergeAll ((ops :: rest).map applyPushes) =
        (rest.map applyPushes).foldl jbMerge (applyPushes ops) := rfl
    obtain ⟨c1, c2⟩ := h2
    rw [hm, e1, e2]
    refine ⟨c1, c2, ?_⟩
    cases hx1 : ((rest.map applyPushes).foldl jbMerge (applyPushes ops)).junctions o <;>
      cases hx2 : ((rest.map applyPushes).foldl jbMerge (applyPushes ops)).internals o <;>
      simp_all <;> omega

/-! ## Graph surgery (generator/data_types/graph.rs)

The generator graph: petgraph nodes `0 .. nodeCount` and directed edges
with `EdgeInfo`. `fix_dead_ends` consumes the Kosaraju SCC decomposition
(petgraph library code) through the dense `component_ids` array, modelled
as the function `compId`; `strongly_connect` consumes, for each non-base
SCC, the pair chosen through the rstar R-tree and the `f64` haversine
distance, modelled as the bridge list (node, base node, distance). -/

structure GGraph where
  nodeCount : Nat
  edges : List CEdge
  deriving Repr, DecidableEq

/-- One directed step along an edge list. -/
def edgeRel (es : List CEdge) (u v : Nat) : Prop :=
  ∃ e ∈ es, e.source = u ∧ e.target = v

/-- Directed reachability. -/
def Reaches (es : List CEdge) : Nat → Nat → Prop :=
  Relation.ReflTransGen (edgeRel es)

/-- From `Graph::fix_dead_ends`: for every edge whose endpoints lie in
different SCCs (per the `component_ids` array `compId`), add the reversed
copy with the same `EdgeInfo`. -/
def fix_dead_ends (g : GGraph) (compId : Nat → Nat) : GGraph :=
  ⟨g.nodeCount,
    g.edges ++ (g.edges.filter (fun e => compId e.source != compId e.target)).map
      (fun e => ⟨e.target, e.source, e.distance, e.road_level⟩)⟩

/-- From `Graph::strongly_connect`: for each remaining non-base component,
two arcs with `road_level = 5` between the chosen component node and the
chosen base node (one in each direction), with the chosen distance. -/
def strongly_connect (g : GGraph) (bridges : List (Nat × Nat × Nat)) : GGraph :=
  ⟨g.nodeCount,
    g.edges ++ bridges.flatMap
      (fun b => [⟨b.1, b.2.1, b.2.2, 5⟩, ⟨b.2.1, b.1, b.2.2, 5⟩])⟩

theorem reaches_mono {es es2 : List CEdge} (hsub : ∀ e ∈ es, e ∈ es2) {u v : Nat}
    (h : Reaches es u v) : Reaches es2 u v := by
  induction h with
  | refl => exact Relation.ReflTransGen.refl
  | tail _ hstep ih =>
    obtain ⟨e, he, h1, h2⟩ := hstep
    exact Relation.ReflTransGen.tail ih ⟨e, hsub e he, h1, h2⟩

theorem mem_strongly_connect_left (g : GGraph) (bridges : List (Nat × Nat × Nat))
    (e : CEdge) (he : e ∈ g.edges) : e ∈ (strongly_connect g bridges).edges := by
  simp [strongly_connect, he]

theorem bridge_edges (g : GGraph) (bridges : List (Nat × Nat × Nat))
    (b : Nat × Nat × Nat) (hb : b ∈ bridges) :
    edgeRel (strongly_connect g bridges).edges b.1 b.2.1 ∧
    edgeRel (strongly_connect g bridges).edges b.2.1 b.1 := by
  constructor
  · refine ⟨⟨b.1, b.2.1, b.2.2, 5⟩, ?_, rfl, rfl⟩
    simp only [strongly_connect, List.mem_append, List.mem_flatMap]
    exact Or.inr ⟨b, hb, by simp⟩
  · refine ⟨⟨b.2.1, b.1, b.2.2, 5⟩, ?_, rfl, rfl⟩
    simp only [strongly_connect, List.mem_append, List.mem_flatMap]
    exact Or.inr ⟨b, hb, by simp⟩

/-- C2: run `fix_dead_ends` and then `strongly_connect` on a graph with at
least one node. The SCC decomposition that `strongly_connect` computes on
the intermediate graph is given as the non-empty base component plus the
other components, each internally mutually reachable and together covering
every node, and each non-base component comes with its chosen bridge pair
(component node, base node). Afterwards every node reaches every other
node: the graph is one strongly connected component (Kosaraju would return
a single component). -/
theorem surgery_single_scc (g : GGraph) (compId : Nat → Nat)
    (base : List Nat) (comps : List (List Nat)) (bridges : List (Nat × Nat × Nat))
    (hb0 : base ≠ [])
    (hlen : comps.length = bridges.length)
    (hbase : ∀ u ∈ base, ∀ v ∈ base, Reaches (fix_dead_ends g compId).edges u v)
    (hcomps : ∀ c ∈ comps, ∀ u ∈ c, ∀ v ∈ c, Reaches (fix_dead_ends g compId).edges u v)
    (hcover : ∀ u, u < g.nodeCount → u ∈ base ∨ ∃ c ∈ comps, u ∈ c)
    (hbr : ∀ i (hi : i < comps.length), bridges[i]!.1 ∈ comps[i] ∧
      bridges[i]!.2.1 ∈ base) :
    ∀ u v, u < g.nodeCount → v < g.nodeCount →
      Reaches (strongly_connect (fix_dead_ends g compId) bridges).edges u v := by
  set g1 := fix_dead_ends g compId with hg1
  set g2 := strongly_connect g1 bridges with hg2
  have hlift : ∀ u v, Reaches g1.edges u v → Reaches g2.edges u v := by
    intro u v h
    exact reaches_mono (mem_strongly_connect_left g1 bridges) h
  obtain ⟨b0, hb0mem⟩ : ∃ b0, b0 ∈ base := by
    cases base with
    | nil => exact absurd rfl hb0
    | cons a t => exact ⟨a, List.mem_cons_self a t⟩
  -- every node reaches b0 and is reached from b0
  have hto : ∀ u, u < g.nodeCount → Reaches g2.edges u b0 := by
    intro u hu
    rcases hcover u hu with hub | ⟨c, hc, huc⟩
    · exact hlift _ _ (hbase u hub b0 hb0mem)
    · obtain ⟨i, hi, rfl⟩ := List.mem_iff_getElem.1 hc
      obtain ⟨hci, hbi⟩ := hbr i hi
      have hbl : i < bridges.length := by omega
      have hbget : bridges[i]! = bridges[i] := getElem!_pos bridges i hbl
      have h1 : Reaches g2.edges u bridges[i]!.1 :=
        hlift _ _ (hcomps _ hc u huc _ hci)
      have h2 : edgeRel g2.edges bridges[i]!.1 bridges[i]!.2.1 :=
        (bridge_edges g1 bridges bridges[i]! (hbget ▸ List.getElem_mem hbl)).1
      have h3 : Reaches g2.edges bridges[i]!.2.1 b0 :=
        hlift _ _ (hbase _ hbi b0 hb0mem)
      exact (h1.tail h2).trans h3
  have hfrom : ∀ u, u < g.nodeCount → Reaches g2.edges b0 u := by
    intro u hu
    rcases hcover u hu with hub | ⟨c, hc, huc⟩
    · exact hlift _ _ (hbase b0 hb0mem u hub)
    · obtain ⟨i, hi, rfl⟩ := List.mem_iff_getElem.1 hc
      obtain ⟨hci, hbi⟩ := hbr i hi
      have hbl : i < bridges.length := by omega
      have hbget : bridges[i]! = bridges[i] := getElem!_pos bridges i hbl
      have h1 : Reaches g2.edges b0 bridges[i]!.2.1 :=
        hlift _ _ (hbase b0 hb0mem _ hbi)
      have h2 : edgeRel g2.edges bridges[i]!.2.1 bridges[i]!.1 :=
        (bridge_edges g1 bridges bridges[i]! (hbget ▸ List.getElem_mem hbl)).2
      have h3 : Reaches g2.edges bridges[i]!.1 u :=
        hlift _ _ (hcomps _ hc _ hci u huc)
      exact (h1.tail h2).trans h3
  intro u v hu hv
  exact (hto u hu).trans (hfrom v hv)

/-- Witness for the surgery theorem at a concrete two-node graph with one
crossing edge: `fix_dead_ends` doubles it, the whole graph becomes the base
component, and no bridges are needed. -/
theorem surgery_single_scc_witness :
    (([0, 1] : List Nat) ≠ [] ∧
      ([] : List (List Nat)).length = ([] : List (Nat × Nat × Nat)).length ∧
      (∀ u, u < (2 : Nat) → u ∈ ([0, 1] : List Nat) ∨
        ∃ c ∈ ([] : List (List Nat)), u ∈ c)) ∧
    (∀ u v, u < (⟨2, [⟨0, 1, 1, 0⟩]⟩ : GGraph).nodeCount →
      v < (⟨2, [⟨0, 1, 1, 0⟩]⟩ : GGraph).nodeCount →
      Reaches (strongly_connect (fix_dead_ends ⟨2, [⟨0, 1, 1, 0⟩]⟩ (fun u => u))
        []).edges u v) := by
  refine ⟨⟨by decide, rfl, ?_⟩, ?_⟩
  · intro u hu
    left
    interval_cases u <;> decide
  · refine surgery_single_scc ⟨2, [⟨0, 1, 1, 0⟩]⟩ (fun u => u) [0, 1] [] []
      (by decide) rfl ?_ ?_ ?_ ?_
    · intro u hu v hv
      fin_cases hu <;> fin_cases hv
      · exact Relation.ReflTransGen.refl
      · exact Relation.ReflTransGen.single ⟨⟨0, 1, 1, 0⟩, by decide, rfl, rfl⟩
      · exact Relation.ReflTransGen.single ⟨⟨1, 0, 1, 0⟩, by decide, rfl, rfl⟩
      · exact Relation.ReflTransGen.refl
    · intro c hc
      exact absurd hc (List.not_mem_nil c)
    · intro u hu
      left
      interval_cases u <;> decide
    · intro i hi
      exact absurd hi (Nat.not_lt_zero i)

/-! ## The node store (generator2/data_types/node.rs)

Only the ids column and the index take part in `offset`, so sections are
modelled as their ids column plus the `points.len()` counter (the points
and barrier columns feed `point`/`node`, not `offset`). `DiskVec` is a
fixed-capacity vector: a list plus the builder's capacity bound. -/

/-- One `NodesSection`: the ids column (with page padding) and the number
of real nodes pushed (the length of the points column). -/
structure NSection where
  ids : List Int
  nodesLen : Nat
  deriving Repr, DecidableEq

/-- One `IndexProto` entry recorded by `finish_block`. -/
structure IndexProto where
  min_id : Int
  /-- The `section` field (a Lean keyword). -/
  sec : Nat
  section_nodes_offset : Nat
  range_start : Nat
  range_end : Nat
  deriving Repr, DecidableEq

/-- The `NodesBuilder` state. -/
structure NodesBuilder where
  ids_per_page : Nat
  capacity : Nat
  ids_curr_page : Nat
  curSection : NSection
  last_id : Int
  page_min_id : Option Int
  page_section_ids_start : Nat
  sections : List NSection
  index_entries : List IndexProto
  len : Nat
  deriving Repr, DecidableEq

/-- `NodesBuilder::with_opts` (and `new`, where the capacity is
`ids_per_page * PAGES_PER_SECTION`). -/
def nbNew (idsPerPage capacity : Nat) : NodesBuilder :=
  ⟨idsPerPage, capacity, 0, ⟨[], 0⟩, -(2 ^ 63), none, 0, [], [], 0⟩

/-- `NodesBuilder::finish_block`: record the index entry for the current
page (its `min_id` is unwrapped — it is set whenever `ids_curr_page > 0`),
pad the ids column to the next page boundary, and reset the page state. -/
def finish_block (b : NodesBuilder) : NodesBuilder :=
  if b.ids_curr_page = 0 then b
  else
    let entry : IndexProto :=
      ⟨b.page_min_id.getD 0, b.sections.length,
        b.curSection.nodesLen - b.ids_curr_page,
        b.page_section_ids_start, b.curSection.ids.length⟩
    let padded : NSection :=
      ⟨b.curSection.ids ++ List.replicate (b.ids_per_page - b.ids_curr_page) 0,
        b.curSection.nodesLen⟩
    { b with
      index_entries := b.index_entries ++ [entry],
      curSection := padded,
      ids_curr_page := 0,
      page_min_id := none,
      page_section_ids_start := padded.ids.length }

/-- `NodesBuilder::push` (the source asserts `id > last_id` first; the
claim's hypotheses make the assertion pass): auto-finish a full page, note
the page's first id, roll a full section over, then append. -/
def nbPushTail (b2 : NodesBuilder) (id : Int) : NodesBuilder :=
  let b3 := if b2.page_min_id.isNone then { b2 with page_min_id := some id } else b2
  let b4 :=
    if b3.curSection.ids.length = b3.capacity then
      { b3 with
        sections := b3.sections ++ [b3.curSection]
        curSection := ⟨[], 0⟩
        page_section_ids_start := 0 }
    else b3
  { b4 with
    curSection := ⟨b4.curSection.ids ++ [id], b4.curSection.nodesLen + 1⟩,
    ids_curr_page := b4.ids_curr_page + 1,
    len := b4.len + 1 }

def nbPush (b : NodesBuilder) (id : Int) : NodesBuilder :=
  let b1 := { b with last_id := id }
  let b2 := if b1.ids_curr_page = b1.ids_per_page then finish_block b1 else b1
  nbPushTail b2 id

/-- `NodesBuilder::finish`: a final `finish_block`, then the partial
section joins the committed ones. -/
def nbFinish (b : NodesBuilder) : List NSection × List IndexProto :=
  let b2 := finish_block b
  (b2.sections ++ [b2.curSection], b2.index_entries)

/-- One fully-assembled `IndexMeta`. -/
structure IndexMeta where
  nodes_offset : Nat
  /-- The `section` field (a Lean keyword). -/
  sec : Nat
  section_nodes_offset : Nat
  range_start : Nat
  range_end : Nat
  deriving Repr, DecidableEq

/-- The assembled `Nodes` database (ids column view). -/
structure Nodes where
  sections : List NSection
  min_ids : List Int
  metas : List IndexMeta
  len : Nat
  deriving Repr, DecidableEq

/-- The meta-building fold of `Index::from_entries`: running
`nodes_offset` accumulating each entry's ids-range length. -/
def buildMetas (off : Nat) : List IndexProto → List IndexMeta
  | [] => []
  | e :: rest =>
    ⟨off, e.sec, e.section_nodes_offset, e.range_start, e.range_end⟩ ::
      buildMetas (off + (e.range_end - e.range_start)) rest

/-- Whether one index entry sorts at or before another: the
`sort_by_key(|entry| entry.min_id)` key. -/
def protoLe (a b : IndexProto) : Prop := a.min_id ≤ b.min_id

instance : DecidableRel protoLe := by unfold protoLe; infer_instance

/-- `Nodes::from_builders` followed by `Index::from_entries`: finish every
builder, shift its section pointers past the sections collected so far,
concatenate, sort the entries by `min_id` (stable `sort_by_key`) and build
the metas. -/
def from_builders (builders : List NodesBuilder) : Nodes :=
  let collected := builders.foldl
    (fun (acc : List NSection × List IndexProto × Nat) b =>
      let fin := nbFinish b
      (acc.1 ++ fin.1,
        acc.2.1 ++ fin.2.map (fun e => { e with sec := e.sec + acc.1.length }),
        acc.2.2 + b.len))
    ([], [], 0)
  let sorted := List.insertionSort protoLe collected.2.1
  ⟨collected.1, sorted.map (·.min_id), buildMetas 0 sorted, collected.2.2⟩

/-- `Index::search`: binary-search the sorted `min_ids`; with the distinct
keys produced here, `Ok(i)` and `Err(i)` both select the last entry whose
`min_id` is at most `id`, and `Err(0)` is `None`. -/
def indexSearch (ns : Nodes) (id : Int) : Option IndexMeta :=
  let k := ns.min_ids.countP (fun m => m ≤ id)
  if k = 0 then none else ns.metas[k - 1]?

/-- `Nodes::search`: find the candidate page through the index, slice the
page's ids range out of its section (`&section_ids[range]`), and
binary-search the page (the page ids are strictly increasing, so the match
index is the unique position of `id`). -/
def nsSearch (ns : Nodes) (id : Int) : Option (IndexMeta × Nat) :=
  match indexSearch ns id with
  | none => none
  | some meta =>
    match ns.sections[meta.sec]? with
    | none => none
    | some s =>
      let page := (s.ids.take meta.range_end).drop meta.range_start
      match page.findIdx? (fun x => x = id) with
      | none => none
      | some i => some (meta, i)

/-- `Nodes::offset`. -/
def Nodes.offset (ns : Nodes) (id : Int) : Option Nat :=
  (nsSearch ns id).map (fun p => p.1.nodes_offset + p.2)

/-- Run one builder over its blocks: push every id of a block in order,
then `finish_block`, as the per-blob workers do. -/
def runBuilder (idsPerPage capacity : Nat) (blocks : List (List Int)) : NodesBuilder :=
  blocks.foldl (fun b blk => finish_block (blk.foldl nbPush b)) (nbNew idsPerPage capacity)

/-- Assemble the store from per-builder block lists. -/
def buildNodes (idsPerPage capacity : Nat) (specs : List (List (List Int))) : Nodes :=
  from_builders (specs.map (runBuilder idsPerPage capacity))

/-- All stored ids, in builder/block/push order. -/
def allIdsOf (specs : List (List (List Int))) : List Int :=
  specs.flatten.flatten

/-! ### Page chunking

A block pushed into the builder is cut into pages of `ids_per_page` ids
(the auto-`finish_block` in `push`); `chunks` names that decomposition. -/

def chunks (n : Nat) (l : List Int) : List (List Int) :=
  if h : n = 0 ∨ l = [] then []
  else l.take n :: chunks n (l.drop n)
termination_by l.length
decreasing_by
  push_neg at h
  obtain ⟨h1, h2⟩ := h
  have : 0 < l.length := List.length_pos.2 h2
  simp only [List.length_drop]
  omega

theorem chunks_nil (n : Nat) : chunks n [] = [] := by
  unfold chunks
  simp

theorem chunks_eq_cons {n : Nat} {l : List Int} (hn : n ≠ 0) (hl : l ≠ []) :
    chunks n l = l.take n :: chunks n (l.drop n) := by
  rw [chunks]
  simp [hn, hl]

theorem flatten_chunks {n : Nat} (hn : n ≠ 0) (l : List Int) :
    (chunks n l).flatten = l := by
  by_cases hl : l = []
  · subst hl
    simp [chunks_nil]
  · rw [chunks_eq_cons hn hl, List.flatten_cons,
      flatten_chunks hn (l.drop n), List.take_append_drop]
termination_by l.length
decreasing_by
  have : 0 < l.length := List.length_pos.2 hl
  simp only [List.length_drop]
  omega

theorem chunks_length_le {n : Nat} (hn : n ≠ 0) (l : List Int) :
    ∀ c ∈ chunks n l, 1 ≤ c.length ∧ c.length ≤ n := by
  by_cases hl : l = []
  · subst hl
    simp [chunks_nil]
  · rw [chunks_eq_cons hn hl]
    intro c hc
    rcases List.mem_cons.1 hc with rfl | hmem
    · have : 0 < l.length := List.length_pos.2 hl
      simp only [List.length_take]
      omega
    · exact chunks_length_le hn (l.drop n) c hmem
termination_by l.length
decreasing_by
  have : 0 < l.length := List.length_pos.2 hl
  simp only [List.length_drop]
  omega

theorem chunks_ne_nil {n : Nat} (hn : n ≠ 0) (l : List Int) :
    ∀ c ∈ chunks n l, c ≠ [] := by
  intro c hc
  have := (chunks_length_le hn l c hc).1
  intro hfalse
  rw [hfalse] at this
  simp at this

/-! ### Entry correctness -/

/-- Total indexing into the section list (the code's slice panics are
handled where they can occur). -/
def secAt (secs : List NSection) (i : Nat) : NSection :=
  (secs[i]?).getD ⟨[], 0⟩

/-- The page slice `&section_ids[range]` of an entry. -/
def sliceAt (secs : List NSection) (sec start stop : Nat) : List Int :=
  ((secAt secs sec).ids.take stop).drop start

/-- An index entry correctly describes the chunk `c`: its section exists,
its ids range lies inside the section and slices out exactly `c`, and its
`min_id` is the first id of the chunk. -/
def EntryOk (secs : List NSection) (e : IndexProto) (c : List Int) : Prop :=
  e.sec < secs.length ∧
  e.range_end = e.range_start + c.length ∧
  e.range_end ≤ (secAt secs e.sec).ids.length ∧
  sliceAt secs e.sec e.range_start e.range_end = c ∧
  c ≠ [] ∧
  c.head? = some e.min_id

/-- Sections evolve only by appending ids to existing sections and adding
new sections at the end. -/
def secsLe (s1 s2 : List NSection) : Prop :=
  s1.length ≤ s2.length ∧
  ∀ i, i < s1.length → ∃ t, (secAt s2 i).ids = (secAt s1 i).ids ++ t

theorem secsLe_refl (s : List NSection) : secsLe s s :=
  ⟨le_refl _, fun i _ => ⟨[], (List.append_nil _).symm⟩⟩

theorem secsLe_trans {s1 s2 s3 : List NSection} (h1 : secsLe s1 s2)
    (h2 : secsLe s2 s3) : secsLe s1 s3 := by
  refine ⟨h1.1.trans h2.1, fun i hi => ?_⟩
  obtain ⟨t1, ht1⟩ := h1.2 i hi
  obtain ⟨t2, ht2⟩ := h2.2 i (lt_of_lt_of_le hi h1.1)
  exact ⟨t1 ++ t2, by rw [ht2, ht1, List.append_assoc]⟩

theorem entryOk_mono {s1 s2 : List NSection} (hle : secsLe s1 s2)
    {e : IndexProto} {c : List Int} (h : EntryOk s1 e c) : EntryOk s2 e c := by
  obtain ⟨h1, h2, h3, h4, h5, h6⟩ := h
  obtain ⟨t, ht⟩ := hle.2 e.sec h1
  refine ⟨lt_of_lt_of_le h1 hle.1, h2, ?_, ?_, h5, h6⟩
  · rw [ht, List.length_append]
    omega
  · unfold sliceAt at h4 ⊢
    rw [ht, List.take_append_of_le_length h3, h4]

theorem entriesOk_mono {s1 s2 : List NSection} (hle : secsLe s1 s2)
    {es : List IndexProto} {chs : List (List Int)}
    (h : List.Forall₂ (EntryOk s1) es chs) : List.Forall₂ (EntryOk s2) es chs :=
  h.imp fun {e c} ha => entryOk_mono hle ha

/-! ### Builder invariants

`PS` holds at page boundaries (fresh builder, after `finish_block`); `MS`
holds after the ids of a page chunk `c` have been pushed but before the
chunk's index entry is recorded. `done` lists the chunks already
recorded, in order. -/

structure PS (pp cap : Nat) (b : NodesBuilder) (done : List (List Int)) : Prop where
  hpp : b.ids_per_page = pp
  hcap : b.capacity = cap
  hcurr : b.ids_curr_page = 0
  hmin : b.page_min_id = none
  hstart : b.page_section_ids_start = b.curSection.ids.length
  hmul : ∃ a, b.curSection.ids.length = a * pp
  hle : b.curSection.ids.length ≤ cap
  hsecs : ∀ s ∈ b.sections, s.ids.length = cap
  hentries : List.Forall₂ (EntryOk (b.sections ++ [b.curSection])) b.index_entries done
  hlen : b.len = done.flatten.length

structure MS (pp cap : Nat) (b : NodesBuilder) (done : List (List Int))
    (c : List Int) : Prop where
  hpp : b.ids_per_page = pp
  hcap : b.capacity = cap
  hcurr : b.ids_curr_page = c.length
  hc1 : 1 ≤ c.length
  hc2 : c.length ≤ pp
  hmin : b.page_min_id = c.head?
  hpre : ∃ pre, b.curSection.ids = pre ++ c ∧ pre.length = b.page_section_ids_start
  hmul : ∃ a, b.page_section_ids_start = a * pp
  hcapge : b.page_section_ids_start + pp ≤ cap
  hsecs : ∀ s ∈ b.sections, s.ids.length = cap
  hentries : List.Forall₂ (EntryOk (b.sections ++ [b.curSection])) b.index_entries done
  hlen : b.len = done.flatten.length + c.length

/-! Unfolding equations for `nbPush` and `finish_block` under the
conditions that hold along the invariants. -/

theorem nbPush_fresh_no_roll {b : NodesBuilder} {id : Int}
    (h1 : ¬b.ids_curr_page = b.ids_per_page) (h2 : b.page_min_id = none)
    (h3 : ¬b.curSection.ids.length = b.capacity) :
    nbPush b id = { b with
      last_id := id
      page_min_id := some id
      curSection := ⟨b.curSection.ids ++ [id], b.curSection.nodesLen + 1⟩
      ids_curr_page := b.ids_curr_page + 1
      len := b.len + 1 } := by
  unfold nbPush nbPushTail
  simp [h1, h2, h3]

theorem nbPush_fresh_roll {b : NodesBuilder} {id : Int}
    (h1 : ¬b.ids_curr_page = b.ids_per_page) (h2 : b.page_min_id = none)
    (h3 : b.curSection.ids.length = b.capacity) :
    nbPush b id = { b with
      last_id := id
      page_min_id := some id
      sections := b.sections ++ [b.curSection]
      curSection := ⟨[id], 1⟩
      page_section_ids_start := 0
      ids_curr_page := b.ids_curr_page + 1
      len := b.len + 1 } := by
  unfold nbPush nbPushTail
  simp [h1, h2, h3]

theorem nbPush_mid {b : NodesBuilder} {id : Int}
    (h1 : ¬b.ids_curr_page = b.ids_per_page) (h2 : b.page_min_id.isNone = false)
    (h3 : ¬b.curSection.ids.length = b.capacity) :
    nbPush b id = { b with
      last_id := id
      curSection := ⟨b.curSection.ids ++ [id], b.curSection.nodesLen + 1⟩
      ids_curr_page := b.ids_curr_page + 1
      len := b.len + 1 } := by
  unfold nbPush nbPushTail
  simp [h1, h2, h3]

theorem finish_block_last_id (b : NodesBuilder) (id : Int) :
    finish_block { b with last_id := id } = { finish_block b with last_id := id } := by
  by_cases h : b.ids_curr_page = 0 <;> simp [finish_block, h]

theorem finish_block_of_pending {b : NodesBuilder} (h : ¬b.ids_curr_page = 0) :
    finish_block b = { b with
      index_entries := b.index_entries ++
        [⟨b.page_min_id.getD 0, b.sections.length,
          b.curSection.nodesLen - b.ids_curr_page,
          b.page_section_ids_start, b.curSection.ids.length⟩]
      curSection := ⟨b.curSection.ids ++
        List.replicate (b.ids_per_page - b.ids_curr_page) 0, b.curSection.nodesLen⟩
      ids_curr_page := 0
      page_min_id := none
      page_section_ids_start := b.curSection.ids.length +
        (b.ids_per_page - b.ids_curr_page) } := by
  unfold finish_block
  rw [if_neg h]
  simp

theorem finish_block_of_boundary {b : NodesBuilder} (h : b.ids_curr_page = 0) :
    finish_block b = b := by
  unfold finish_block
  rw [if_pos h]

theorem nbPush_full {b : NodesBuilder} {id : Int}
    (h1 : b.ids_curr_page = b.ids_per_page) (h2 : 1 ≤ b.ids_per_page) :
    nbPush b id = nbPush (finish_block b) id := by
  have hne : ¬b.ids_curr_page = 0 := by omega
  have hfb := finish_block_of_pending hne
  have hc0 : (finish_block b).ids_curr_page = 0 := by rw [hfb]
  have hcp : (finish_block b).ids_per_page = b.ids_per_page := by rw [hfb]
  have hX : ¬((finish_block b).ids_curr_page = (finish_block b).ids_per_page) := by
    rw [hc0, hcp]
    omega
  conv_lhs => rw [nbPush]
  conv_rhs => rw [nbPush]
  rw [if_pos (show ({ b with last_id := id } : NodesBuilder).ids_curr_page =
      ({ b with last_id := id } : NodesBuilder).ids_per_page from h1),
    if_neg (show ¬(({ finish_block b with last_id := id } : NodesBuilder).ids_curr_page =
      ({ finish_block b with last_id := id } : NodesBuilder).ids_per_page) from hX),
    finish_block_last_id]

theorem secAt_append_lt (S : List NSection) (T : List NSection) (i : Nat)
    (h : i < S.length) : secAt (S ++ T) i = secAt S i := by
  unfold secAt
  rw [List.getElem?_append_left h]

theorem secAt_last (S : List NSection) (s : NSection) :
    secAt (S ++ [s]) S.length = s := by
  unfold secAt
  rw [List.getElem?_append_right (le_refl _)]
  simp

theorem secsLe_snoc (S T : List NSection) : secsLe S (S ++ T) := by
  refine ⟨by simp, fun i hi => ⟨[], ?_⟩⟩
  rw [secAt_append_lt S T i hi, List.append_nil]

theorem secsLe_extend_last (S : List NSection) (s : NSection) (t : List Int)
    (n : Nat) : secsLe (S ++ [s]) (S ++ [⟨s.ids ++ t, n⟩]) := by
  refine ⟨by simp, fun i hi => ?_⟩
  rcases Nat.lt_or_ge i S.length with hlt | hge
  · refine ⟨[], ?_⟩
    rw [secAt_append_lt S _ i hlt, secAt_append_lt S _ i hlt, List.append_nil]
  · have hieq : i = S.length := by
      simp only [List.length_append, List.length_singleton] at hi
      omega
    subst hieq
    refine ⟨t, ?_⟩
    rw [secAt_last, secAt_last]

theorem ps_push {pp cap : Nat} (hpp1 : 1 ≤ pp) (hcm : ∃ k, cap = k * pp)
    (hppc : pp ≤ cap) {b : NodesBuilder} {done : List (List Int)}
    (h : PS pp cap b done) (id : Int) : MS pp cap (nbPush b id) done [id] := by
  obtain ⟨hpp, hcap, hcurr, hmin, hstart, ⟨a, ha⟩, hle, hsecs, hentries, hlen⟩ := h
  have h1 : ¬b.ids_curr_page = b.ids_per_page := by
    rw [hcurr, hpp]
    omega
  by_cases h3 : b.curSection.ids.length = b.capacity
  · rw [nbPush_fresh_roll h1 hmin h3]
    refine ⟨hpp, hcap, by simp [hcurr], by simp, by simpa using hpp1, rfl,
      ⟨[], by simp, by simp⟩, ⟨0, by simp⟩, by simpa using hppc, ?_, ?_, ?_⟩
    · intro s hs
      rcases List.mem_append.1 hs with hs | hs
      · exact hsecs s hs
      · rw [List.mem_singleton.1 hs, ← hcap, ← h3]
    · refine entriesOk_mono ?_ hentries
      have : (b.sections ++ [b.curSection]) ++ [⟨[id], 1⟩] =
          (b.sections ++ [b.curSection]) ++ [(⟨[id], 1⟩ : NSection)] := rfl
      exact secsLe_snoc (b.sections ++ [b.curSection]) [⟨[id], 1⟩]
    · simp [hlen]
  · rw [nbPush_fresh_no_roll h1 hmin h3]
    have hltcap : b.curSection.ids.length < cap := by
      rw [hcap] at h3
      omega
    obtain ⟨k, hk⟩ := hcm
    have hak : a < k := by
      have : a * pp < k * pp := by rw [← ha, ← hk]; exact hltcap
      exact Nat.lt_of_mul_lt_mul_right this
    have hcapge : b.curSection.ids.length + pp ≤ cap := by
      have : (a + 1) * pp ≤ k * pp := Nat.mul_le_mul_right pp hak
      rw [Nat.succ_mul] at this
      omega
    refine ⟨hpp, hcap, by simp [hcurr], by simp, by simpa using hpp1, rfl,
      ⟨b.curSection.ids, rfl, hstart.symm⟩, ⟨a, by rw [hstart, ha]⟩,
      by rw [hstart]; exact hcapge, hsecs, ?_, by simp [hlen]⟩
    refine entriesOk_mono ?_ hentries
    exact secsLe_extend_last b.sections b.curSection [id] (b.curSection.nodesLen + 1)

theorem forall2_append {α β : Type} {R : α → β → Prop} {l1 l3 : List α}
    {l2 l4 : List β} (h1 : List.Forall₂ R l1 l2) (h2 : List.Forall₂ R l3 l4) :
    List.Forall₂ R (l1 ++ l3) (l2 ++ l4) := by
  induction h1 with
  | nil => exact h2
  | cons hr _ ih => exact List.Forall₂.cons hr ih

theorem ms_push {pp cap : Nat} {b : NodesBuilder} {done : List (List Int)}
    {c : List Int} (h : MS pp cap b done c) (hlt : c.length < pp) (id : Int) :
    MS pp cap (nbPush b id) done (c ++ [id]) := by
  obtain ⟨hpp, hcap, hcurr, hc1, hc2, hmin, ⟨pre, hpre, hprelen⟩, hmul, hcapge,
    hsecs, hentries, hlen⟩ := h
  obtain ⟨hd, tl, rfl⟩ : ∃ hd tl, c = hd :: tl := by
    cases c with
    | nil => simp at hc1
    | cons hd tl => exact ⟨hd, tl, rfl⟩
  have hltlen : tl.length + 1 < pp := by simpa using hlt
  have h1 : ¬b.ids_curr_page = b.ids_per_page := by
    rw [hcurr, hpp]
    simp only [List.length_cons]
    omega
  have h2 : b.page_min_id.isNone = false := by
    rw [hmin]
    rfl
  have h3 : ¬b.curSection.ids.length = b.capacity := by
    rw [hpre, List.length_append, hprelen, hcap]
    simp only [List.length_cons]
    omega
  rw [nbPush_mid h1 h2 h3]
  refine ⟨hpp, hcap, ?_, by simp, ?_, by simp [hmin],
    ⟨pre, by rw [hpre, List.append_assoc], hprelen⟩, hmul, hcapge, hsecs, ?_, ?_⟩
  · show b.ids_curr_page + 1 = ((hd :: tl) ++ [id]).length
    rw [hcurr]
    simp
  · show ((hd :: tl) ++ [id]).length ≤ pp
    simp only [List.length_append, List.length_cons, List.length_nil]
    omega
  · refine entriesOk_mono ?_ hentries
    exact secsLe_extend_last b.sections b.curSection [id] (b.curSection.nodesLen + 1)
  · show b.len + 1 = done.flatten.length + ((hd :: tl) ++ [id]).length
    rw [hlen]
    simp only [List.length_append, List.length_cons, List.length_nil]
    omega

theorem ms_finish {pp cap : Nat} {b : NodesBuilder} {done : List (List Int)}
    {c : List Int} (h : MS pp cap b done c) :
    PS pp cap (finish_block b) (done ++ [c]) := by
  obtain ⟨hpp, hcap, hcurr, hc1, hc2, hmin, ⟨pre, hpre, hprelen⟩, ⟨a, hmul⟩, hcapge,
    hsecs, hentries, hlen⟩ := h
  obtain ⟨hd, tl, rfl⟩ : ∃ hd tl, c = hd :: tl := by
    cases c with
    | nil => simp at hc1
    | cons hd tl => exact ⟨hd, tl, rfl⟩
  have hne : ¬b.ids_curr_page = 0 := by
    rw [hcurr]
    omega
  rw [finish_block_of_pending hne]
  have hidslen : b.curSection.ids.length = b.page_section_ids_start + (hd :: tl).length := by
    rw [hpre, List.length_append, hprelen]
  have hpadlen : (b.curSection.ids ++
      List.replicate (b.ids_per_page - b.ids_curr_page) 0).length =
      b.page_section_ids_start + pp := by
    rw [List.length_append, List.length_replicate, hidslen, hcurr, hpp]
    omega
  refine ⟨hpp, hcap, rfl, rfl,
    by rw [List.length_append, List.length_replicate],
    ⟨a + 1, by rw [hpadlen, hmul, Nat.succ_mul]⟩,
    by rw [hpadlen]; exact hcapge, hsecs, ?_,
    (by
      show b.len = ((done ++ [hd :: tl]).flatten).length
      rw [hlen, List.flatten_append]
      simp)⟩
  refine forall2_append (entriesOk_mono (secsLe_extend_last b.sections b.curSection _ _)
    hentries) ?_
  refine List.forall₂_cons.2 ⟨?_, List.Forall₂.nil⟩
  refine ⟨by simp, ?_, ?_, ?_, by simp, by simp [hmin]⟩
  · rw [hidslen]
  · rw [secAt_last]
    show b.curSection.ids.length ≤
      (b.curSection.ids ++ List.replicate (b.ids_per_page - b.ids_curr_page) 0).length
    rw [List.length_append]
    omega
  · unfold sliceAt
    rw [secAt_last]
    have htake : (b.curSection.ids ++
        List.replicate (b.ids_per_page - b.ids_curr_page) 0).take
        b.curSection.ids.length = b.curSection.ids :=
      (List.take_append_of_le_length (le_refl _)).trans (List.take_length _)
    rw [htake, hpre, ← hprelen, List.drop_left]

theorem ms_push_rest {pp cap : Nat} {b : NodesBuilder} {done : List (List Int)}
    {c1 : List Int} (h : MS pp cap b done c1) (rest : List Int)
    (hle : c1.length + rest.length ≤ pp) :
    MS pp cap (rest.foldl nbPush b) done (c1 ++ rest) := by
  induction rest generalizing b c1 with
  | nil => simpa using h
  | cons x rs ih =>
    have h2 := ms_push h (by simp only [List.length_cons] at hle; omega) x
    have h3 := ih h2 (by simp only [List.length_cons] at hle; simp; omega)
    simpa [List.append_assoc] using h3

theorem ps_push_chunk {pp cap : Nat} (hpp1 : 1 ≤ pp) (hcm : ∃ k, cap = k * pp)
    (hppc : pp ≤ cap) {b : NodesBuilder} {done : List (List Int)}
    (h : PS pp cap b done) (c : List Int) (hc1 : c ≠ []) (hc2 : c.length ≤ pp) :
    MS pp cap (c.foldl nbPush b) done c := by
  cases c with
  | nil => exact absurd rfl hc1
  | cons x rs =>
    have h0 := ps_push hpp1 hcm hppc h x
    have h1 := ms_push_rest h0 rs (by simp only [List.length_cons] at hc2; simp; omega)
    simpa using h1

theorem ps_block {pp cap : Nat} (hpp1 : 1 ≤ pp) (hcm : ∃ k, cap = k * pp)
    (hppc : pp ≤ cap) {b : NodesBuilder} {done : List (List Int)}
    (h : PS pp cap b done) (block : List Int) (hne : block ≠ []) :
    PS pp cap (finish_block (block.foldl nbPush b)) (done ++ chunks pp block) := by
  by_cases hsmall : block.length ≤ pp
  · have hm := ps_push_chunk hpp1 hcm hppc h block hne hsmall
    have hps := ms_finish hm
    have hch : chunks pp block = [block] := by
      rw [chunks_eq_cons (by omega) hne, List.take_of_length_le hsmall,
        List.drop_of_length_le hsmall, chunks_nil]
    rw [hch]
    exact hps
  · push_neg at hsmall
    have hbpos : 0 < block.length := by omega
    have hne2 : block.drop pp ≠ [] := by
      intro hc
      have := congrArg List.length hc
      rw [List.length_drop] at this
      simp only [List.length_nil] at this
      omega
    have htne : block.take pp ≠ [] := by
      intro hc
      have := congrArg List.length hc
      rw [List.length_take] at this
      simp only [List.length_nil] at this
      omega
    have htlen : (block.take pp).length = pp := by
      rw [List.length_take]
      omega
    have hm := ps_push_chunk hpp1 hcm hppc h (block.take pp) htne (le_of_eq htlen)
    have hsplit : block.foldl nbPush b =
        (block.drop pp).foldl nbPush ((block.take pp).foldl nbPush b) := by
      conv_lhs => rw [← List.take_append_drop pp block]
      rw [List.foldl_append]
    obtain ⟨d0, ds, hd⟩ : ∃ d0 ds, block.drop pp = d0 :: ds := by
      cases hcase : block.drop pp with
      | nil => exact absurd hcase hne2
      | cons d0 ds => exact ⟨d0, ds, rfl⟩
    have hfull : ((block.take pp).foldl nbPush b).ids_curr_page =
        ((block.take pp).foldl nbPush b).ids_per_page := by
      rw [hm.hcurr, hm.hpp, htlen]
    have heq : (block.drop pp).foldl nbPush ((block.take pp).foldl nbPush b) =
        (block.drop pp).foldl nbPush (finish_block ((block.take pp).foldl nbPush b)) := by
      rw [hd]
      simp only [List.foldl_cons]
      rw [nbPush_full hfull (by rw [hm.hpp]; exact hpp1)]
    have hps := ms_finish hm
    have hrec := ps_block hpp1 hcm hppc hps (block.drop pp) hne2
    rw [hsplit, heq]
    have hch : chunks pp block = block.take pp :: chunks pp (block.drop pp) :=
      chunks_eq_cons (by omega) hne
    rw [hch, show done ++ (block.take pp :: chunks pp (block.drop pp)) =
      (done ++ [block.take pp]) ++ chunks pp (block.drop pp) by simp]
    exact hrec
termination_by block.length
decreasing_by
  rw [List.length_drop]
  omega

theorem ps_new (pp cap : Nat) : PS pp cap (nbNew pp cap) [] := by
  refine ⟨rfl, rfl, rfl, rfl, rfl, ⟨0, by simp [nbNew]⟩, by simp [nbNew], ?_,
    List.Forall₂.nil, rfl⟩
  intro s hs
  simp [nbNew] at hs

theorem ps_run {pp cap : Nat} (hpp1 : 1 ≤ pp) (hcm : ∃ k, cap = k * pp)
    (hppc : pp ≤ cap) (blocks : List (List Int))
    (hne : ∀ blk ∈ blocks, blk ≠ []) :
    PS pp cap (runBuilder pp cap blocks) (blocks.flatMap (chunks pp)) := by
  suffices haux : ∀ (bl : List (List Int)) (b : NodesBuilder) (done : List (List Int)),
      (∀ blk ∈ bl, blk ≠ []) → PS pp cap b done →
      PS pp cap (bl.foldl (fun b blk => finish_block (blk.foldl nbPush b)) b)
        (done ++ bl.flatMap (chunks pp)) by
    have := haux blocks (nbNew pp cap) [] hne (ps_new pp cap)
    simpa [runBuilder] using this
  intro bl
  induction bl with
  | nil =>
    intro b done _ h
    simpa using h
  | cons blk rest ih =>
    intro b done hne2 h
    have h1 := ps_block hpp1 hcm hppc h blk (hne2 blk (List.mem_cons_self _ _))
    have h2 := ih _ _ (fun x hx => hne2 x (List.mem_cons_of_mem _ hx)) h1
    simpa [List.append_assoc] using h2

theorem nbFinish_boundary {pp cap : Nat} {b : NodesBuilder} {done : List (List Int)}
    (h : PS pp cap b done) :
    nbFinish b = (b.sections ++ [b.curSection], b.index_entries) := by
  unfold nbFinish
  rw [finish_block_of_boundary h.hcurr]

theorem entryOk_shift {secs : List NSection} {e : IndexProto} {c : List Int}
    (pre : List NSection) (h : EntryOk secs e c) :
    EntryOk (pre ++ secs) { e with sec := e.sec + pre.length } c := by
  obtain ⟨h1, h2, h3, h4, h5, h6⟩ := h
  have hsec : secAt (pre ++ secs) (e.sec + pre.length) = secAt secs e.sec := by
    unfold secAt
    rw [List.getElem?_append_right (by omega), Nat.add_sub_cancel]
  refine ⟨?_, h2, ?_, ?_, h5, h6⟩
  · show e.sec + pre.length < (pre ++ secs).length
    simp only [List.length_append]
    omega
  · show e.range_end ≤ (secAt (pre ++ secs) (e.sec + pre.length)).ids.length
    rw [hsec]
    exact h3
  · show sliceAt (pre ++ secs) (e.sec + pre.length) e.range_start e.range_end = c
    unfold sliceAt
    unfold sliceAt at h4
    rw [hsec]
    exact h4

theorem entriesOk_shift {secs : List NSection} {es : List IndexProto}
    {chs : List (List Int)} (pre : List NSection)
    (h : List.Forall₂ (EntryOk secs) es chs) :
    List.Forall₂ (EntryOk (pre ++ secs))
      (es.map (fun e => { e with sec := e.sec + pre.length })) chs := by
  induction h with
  | nil => exact List.Forall₂.nil
  | cons hr _ ih => exact List.Forall₂.cons (entryOk_shift pre hr) ih

theorem collect_spec {pp cap : Nat} :
    ∀ (bs : List NodesBuilder) (dones : List (List (List Int))),
    List.Forall₂ (PS pp cap) bs dones →
    ∀ (accS : List NSection) (accE : List IndexProto) (accL : Nat)
      (accChs : List (List Int)),
    List.Forall₂ (EntryOk accS) accE accChs →
    List.Forall₂
      (EntryOk (bs.foldl (fun (acc : List NSection × List IndexProto × Nat) b =>
        let fin := nbFinish b
        (acc.1 ++ fin.1,
          acc.2.1 ++ fin.2.map (fun e => { e with sec := e.sec + acc.1.length }),
          acc.2.2 + b.len)) (accS, accE, accL)).1)
      ((bs.foldl (fun (acc : List NSection × List IndexProto × Nat) b =>
        let fin := nbFinish b
        (acc.1 ++ fin.1,
          acc.2.1 ++ fin.2.map (fun e => { e with sec := e.sec + acc.1.length }),
          acc.2.2 + b.len)) (accS, accE, accL)).2.1)
      (accChs ++ dones.flatten) ∧
    ((bs.foldl (fun (acc : List NSection × List IndexProto × Nat) b =>
        let fin := nbFinish b
        (acc.1 ++ fin.1,
          acc.2.1 ++ fin.2.map (fun e => { e with sec := e.sec + acc.1.length }),
          acc.2.2 + b.len)) (accS, accE, accL)).2.2) =
      accL + (dones.map (fun d => d.flatten.length)).sum := by
  intro bs dones hF
  induction hF with
  | nil =>
    intro accS accE accL accChs hacc
    simpa using hacc
  | @cons b done bs2 dones2 hbd _ ih =>
    intro accS accE accL accChs hacc
    simp only [List.foldl_cons, List.flatten_cons]
    have hfin := nbFinish_boundary hbd
    rw [hfin]
    have hnew : List.Forall₂ (EntryOk (accS ++ (b.sections ++ [b.curSection])))
        (accE ++ b.index_entries.map (fun e => { e with sec := e.sec + accS.length }))
        (accChs ++ done) :=
      forall2_append (entriesOk_mono (secsLe_snoc accS _) hacc)
        (entriesOk_shift accS hbd.hentries)
    have := ih (accS ++ (b.sections ++ [b.curSection]))
      (accE ++ b.index_entries.map (fun e => { e with sec := e.sec + accS.length }))
      (accL + b.len) (accChs ++ done) hnew
    refine ⟨?_, ?_⟩
    · have h1 := this.1
      rwa [List.append_assoc accChs done dones2.flatten] at h1
    · rw [this.2, hbd.hlen, List.map_cons, List.sum_cons]
      omega

/-! ### Search correctness -/

/-- Two blocks (or chunks) occupy disjoint id intervals: one lies entirely
below the other. -/
def blockDisjoint (c d : List Int) : Prop :=
  (∀ x ∈ c, ∀ y ∈ d, x < y) ∨ (∀ x ∈ c, ∀ y ∈ d, y < x)

instance (c d : List Int) : Decidable (blockDisjoint c d) := by
  unfold blockDisjoint
  infer_instance

theorem blockDisjoint_symm {c d : List Int} (h : blockDisjoint c d) :
    blockDisjoint d c := by
  rcases h with h | h
  · exact Or.inr fun x hx y hy => h y hy x hx
  · exact Or.inl fun x hx y hy => h y hy x hx

theorem blockDisjoint_sub {c d c2 d2 : List Int} (h : blockDisjoint c d)
    (hc : ∀ x ∈ c2, x ∈ c) (hd : ∀ y ∈ d2, y ∈ d) : blockDisjoint c2 d2 := by
  rcases h with h | h
  · exact Or.inl fun x hx y hy => h x (hc x hx) y (hd y hy)
  · exact Or.inr fun x hx y hy => h x (hc x hx) y (hd y hy)

instance : IsTotal IndexProto protoLe :=
  ⟨by intro a b; unfold protoLe; omega⟩

instance : IsTrans IndexProto protoLe :=
  ⟨by intro a b c; unfold protoLe; omega⟩

theorem head_le_of_mem {c : List Int} (hasc : List.Pairwise (· < ·) c) {id hd : Int}
    (hhd : c.head? = some hd) (hid : id ∈ c) : hd ≤ id := by
  cases c with
  | nil => simp at hid
  | cons a t =>
    simp only [List.head?_cons, Option.some.injEq] at hhd
    subst hhd
    rcases List.mem_cons.1 hid with rfl | hmem
    · exact le_refl _
    · exact le_of_lt ((List.pairwise_cons.1 hasc).1 id hmem)

theorem findIdx_rank {c : List Int} (hasc : List.Pairwise (· < ·) c) {id : Int}
    (hid : id ∈ c) :
    c.findIdx? (fun x => x = id) = some ((c.filter (fun x => x < id)).length) := by
  induction c with
  | nil => simp at hid
  | cons a t ih =>
    obtain ⟨hlt, htasc⟩ := List.pairwise_cons.1 hasc
    by_cases ha : a = id
    · subst ha
      have hfilt : t.filter (fun x => x < a) = [] := by
        rw [List.filter_eq_nil_iff]
        intro y hy
        have := hlt y hy
        simp only [decide_eq_true_eq]
        omega
      simp [List.findIdx?_cons, List.filter_cons, hfilt]
    · have hidt : id ∈ t := by
        rcases List.mem_cons.1 hid with rfl | hmem
        · exact absurd rfl ha
        · exact hmem
      have halt : a < id := hlt id hidt
      rw [List.findIdx?_cons]
      rw [if_neg (by simpa using ha)]
      rw [List.findIdx?_succ, ih htasc hidt]
      have : List.filter (fun x => decide (x < id)) (a :: t) =
          a :: List.filter (fun x => decide (x < id)) t := by
        rw [List.filter_cons, if_pos (by simpa using halt)]
      simp [this]

theorem countP_eq_index {α : Type} {l : List α} {p : α → Bool} {j : Nat}
    (hj : j < l.length)
    (htrue : ∀ i (hi : i < l.length), i ≤ j → p l[i])
    (hfalse : ∀ i (hi : i < l.length), j < i → ¬ p l[i]) :
    l.countP p = j + 1 := by
  conv_lhs => rw [← List.take_append_drop (j + 1) l]
  rw [List.countP_append]
  have h1 : (l.take (j + 1)).countP p = j + 1 := by
    have hlen : (l.take (j + 1)).length = j + 1 := by
      rw [List.length_take]
      omega
    have hall : ∀ a ∈ l.take (j + 1), p a = true := by
      intro a ha
      obtain ⟨i, hi, rfl⟩ := List.mem_iff_getElem.1 ha
      rw [List.getElem_take]
      exact htrue i (by rw [hlen] at hi; omega) (by rw [hlen] at hi; omega)
    rw [List.countP_eq_length.2 hall, hlen]
  have h2 : (l.drop (j + 1)).countP p = 0 := by
    rw [List.countP_eq_zero]
    intro a ha
    obtain ⟨i, hi, rfl⟩ := List.mem_iff_getElem.1 ha
    rw [List.getElem_drop]
    exact hfalse (j + 1 + i) (by rw [List.length_drop] at hi; omega) (by omega)
  rw [h1, h2]

/-- The range length recorded by one entry. -/
def rangeLen (e : IndexProto) : Nat := e.range_end - e.range_start

theorem buildMetas_length (off : Nat) (es : List IndexProto) :
    (buildMetas off es).length = es.length := by
  induction es generalizing off with
  | nil => rfl
  | cons e rest ih => simp [buildMetas, ih]

theorem buildMetas_getElem (off : Nat) (es : List IndexProto) (i : Nat)
    (h : i < es.length) (h2 : i < (buildMetas off es).length) :
    (buildMetas off es)[i] =
      ⟨off + ((es.take i).map rangeLen).sum, es[i].sec, es[i].section_nodes_offset,
        es[i].range_start, es[i].range_end⟩ := by
  induction es generalizing off i with
  | nil => simp at h
  | cons e rest ih =>
    cases i with
    | zero => simp [buildMetas]
    | succ i2 =>
      have hi2 : i2 < rest.length := by simpa using h
      have hb2 : i2 < (buildMetas (off + (e.range_end - e.range_start)) rest).length := by
        rw [buildMetas_length]
        exact hi2
      show (buildMetas (off + (e.range_end - e.range_start)) rest)[i2] = _
      rw [ih (off + (e.range_end - e.range_start)) i2 hi2 hb2]
      have : (e :: rest).take (i2 + 1) = e :: rest.take i2 := rfl
      rw [this, List.map_cons, List.sum_cons]
      have harith : off + (e.range_end - e.range_start) + ((rest.take i2).map rangeLen).sum =
          off + (rangeLen e + ((rest.take i2).map rangeLen).sum) := by
        unfold rangeLen
        omega
      rw [harith]
      rfl

theorem perm_forall2 {α β : Type} {R : α → β → Prop} {l1 l1b : List α}
    (hp : l1.Perm l1b) : ∀ {l2 : List β}, List.Forall₂ R l1 l2 →
    ∃ l2b, l2.Perm l2b ∧ List.Forall₂ R l1b l2b := by
  induction hp with
  | nil =>
    intro l2 h
    cases h
    exact ⟨[], List.Perm.refl _, List.Forall₂.nil⟩
  | cons x _ ih =>
    intro l2 h
    cases h with
    | cons hr htail =>
      obtain ⟨l2b, hperm, hf⟩ := ih htail
      exact ⟨_ :: l2b, hperm.cons _, List.Forall₂.cons hr hf⟩
  | swap x y t =>
    intro l2 h
    cases h with
    | cons hr1 h2 =>
      cases h2 with
      | cons hr2 htail =>
        exact ⟨_ :: _ :: _, List.Perm.swap _ _ _, List.Forall₂.cons hr2
          (List.Forall₂.cons hr1 htail)⟩
  | trans _ _ ih1 ih2 =>
    intro l2 h
    obtain ⟨l2b, hp1, hf1⟩ := ih1 h
    obtain ⟨l2c, hp2, hf2⟩ := ih2 hf1
    exact ⟨l2c, hp1.trans hp2, hf2⟩

theorem sum_map_eq_of_forall2 {α β : Type} {f : α → Nat} {g : β → Nat}
    {l1 : List α} {l2 : List β} (h : List.Forall₂ (fun a b => f a = g b) l1 l2) :
    (l1.map f).sum = (l2.map g).sum := by
  induction h with
  | nil => rfl
  | cons hr _ ih => simp [hr, ih]

theorem filter_flatten {α : Type} (p : α → Bool) (L : List (List α)) :
    L.flatten.filter p = (L.map (·.filter p)).flatten := by
  induction L with
  | nil => rfl
  | cons l rest ih => simp [List.filter_append, ih]

theorem secAt_lt {secs : List NSection} {i : Nat} (h : i < secs.length) :
    secAt secs i = secs[i] := by
  unfold secAt
  rw [List.getElem?_eq_getElem h]
  rfl

/-- The core search correctness: over an assembled `Nodes` whose sorted
entries describe the chunk list `chs` (ascending chunks in pairwise
disjoint id ranges), `offset` of a stored id is its rank among all stored
ids. -/
theorem offset_correct
    (secs : List NSection) (entries : List IndexProto) (chs : List (List Int)) (L : Nat)
    (hF : List.Forall₂ (EntryOk secs) entries chs)
    (hsorted : List.Pairwise protoLe entries)
    (hasc : ∀ c ∈ chs, List.Pairwise (· < ·) c)
    (hdisj : List.Pairwise blockDisjoint chs)
    (id : Int) (hid : id ∈ chs.flatten) :
    Nodes.offset ⟨secs, entries.map (·.min_id), buildMetas 0 entries, L⟩ id =
      some ((chs.flatten.filter (fun x => x < id)).length) := by
  have hlen : entries.length = chs.length := hF.length_eq
  obtain ⟨c, hcmem, hidc⟩ := List.mem_flatten.1 hid
  obtain ⟨j, hj, rfl⟩ := List.mem_iff_getElem.1 hcmem
  have hje : j < entries.length := by omega
  have hEnt : ∀ l (hl1 : l < entries.length) (hl2 : l < chs.length),
      EntryOk secs (entries.get ⟨l, hl1⟩) (chs.get ⟨l, hl2⟩) :=
    fun l hl1 hl2 => hF.get hl1 hl2
  have hEntE : ∀ l (hl1 : l < entries.length) (hl2 : l < chs.length),
      EntryOk secs entries[l] chs[l] := by
    intro l hl1 hl2
    simpa using hEnt l hl1 hl2
  have hmem_of : ∀ l (hl1 : l < entries.length) (hl2 : l < chs.length),
      entries[l].min_id ∈ chs[l] := by
    intro l hl1 hl2
    exact List.mem_of_mem_head? (Option.mem_def.2 (hEntE l hl1 hl2).2.2.2.2.2)
  have hjmem : chs[j] ∈ chs := List.getElem_mem hj
  have hminj_le : entries[j].min_id ≤ id :=
    head_le_of_mem (hasc _ hjmem) (hEntE j hje hj).2.2.2.2.2 hidc
  have hA : ∀ l (hl : l < entries.length), l ≤ j → entries[l].min_id ≤ id := by
    intro l hl hlj
    rcases Nat.lt_or_ge l j with hlt | hge
    · have hpl : protoLe entries[l] entries[j] :=
        List.pairwise_iff_getElem.1 hsorted l j hl hje hlt
      exact le_trans hpl hminj_le
    · have heq : l = j := by omega
      subst heq
      exact hminj_le
  have hB : ∀ l (hl : l < entries.length), j < l → ¬ entries[l].min_id ≤ id := by
    intro l hl hjl
    have hlc : l < chs.length := by omega
    have hd : blockDisjoint chs[j] chs[l] :=
      List.pairwise_iff_getElem.1 hdisj j l hj hlc hjl
    have hpl : protoLe entries[j] entries[l] :=
      List.pairwise_iff_getElem.1 hsorted j l hje hl hjl
    rcases hd with hd | hd
    · have := hd id hidc entries[l].min_id (hmem_of l hl hlc)
      omega
    · have h1 := hd entries[j].min_id (hmem_of j hje hj) entries[l].min_id (hmem_of l hl hlc)
      unfold protoLe at hpl
      omega
  have hcount : (entries.map (fun e => e.min_id)).countP (fun m => decide (m ≤ id)) =
      j + 1 := by
    apply countP_eq_index (j := j)
    · rw [List.length_map]
      exact hje
    · intro i hi hij
      rw [List.length_map] at hi
      rw [List.getElem_map]
      exact decide_eq_true (hA i hi hij)
    · intro i hi hij
      rw [List.length_map] at hi
      rw [List.getElem_map]
      simp only [decide_eq_true_eq]
      exact hB i hi hij
  have hbm : j < (buildMetas 0 entries).length := by
    rw [buildMetas_length]
    exact hje
  have hmeta : (buildMetas 0 entries)[j]? =
      some ⟨((entries.take j).map rangeLen).sum, entries[j].sec,
        entries[j].section_nodes_offset, entries[j].range_start, entries[j].range_end⟩ := by
    rw [List.getElem?_eq_getElem hbm, buildMetas_getElem 0 entries j hje hbm]
    simp
  obtain ⟨hsec_lt, hre, hre_le, hslice, hcne, hhead⟩ := hEntE j hje hj
  have hsecs : secs[entries[j].sec]? = some (secAt secs entries[j].sec) := by
    rw [List.getElem?_eq_getElem hsec_lt, secAt_lt hsec_lt]
  have hpage : ((secAt secs entries[j].sec).ids.take entries[j].range_end).drop
      entries[j].range_start = chs[j] := hslice
  have hfind : (((secAt secs entries[j].sec).ids.take entries[j].range_end).drop
      entries[j].range_start).findIdx? (fun x => x = id) =
      some ((chs[j].filter (fun x => x < id)).length) := by
    rw [hpage]
    exact findIdx_rank (hasc _ hjmem) hidc
  have hidx : indexSearch ⟨secs, entries.map (·.min_id), buildMetas 0 entries, L⟩ id =
      (buildMetas 0 entries)[j]? := by
    show (if (entries.map (fun e => e.min_id)).countP (fun m => decide (m ≤ id)) = 0
        then (none : Option IndexMeta)
        else (buildMetas 0 entries)[(entries.map (fun e => e.min_id)).countP
          (fun m => decide (m ≤ id)) - 1]?) = (buildMetas 0 entries)[j]?
    rw [hcount]
    simp
  have hns : nsSearch ⟨secs, entries.map (·.min_id), buildMetas 0 entries, L⟩ id =
      some (⟨((entries.take j).map rangeLen).sum, entries[j].sec,
        entries[j].section_nodes_offset, entries[j].range_start, entries[j].range_end⟩,
        (chs[j].filter (fun x => x < id)).length) := by
    simp only [nsSearch]
    rw [hidx, hmeta]
    simp only [hsecs]
    rw [hfind]
  have hsum : ((entries.take j).map rangeLen).sum = ((chs.take j).map List.length).sum := by
    apply sum_map_eq_of_forall2
    refine (List.forall₂_take j hF).imp fun e c2 he => ?_
    have h2 := he.2.1
    unfold rangeLen
    omega
  have hdecomp : chs = chs.take j ++ chs[j] :: chs.drop (j + 1) := by
    conv_lhs => rw [← List.take_append_drop j chs]
    rw [List.drop_eq_getElem_cons hj]
  have hfull : (chs.take j).flatten.filter (fun x => x < id) = (chs.take j).flatten := by
    rw [List.filter_eq_self]
    intro a ha
    obtain ⟨c2, hc2, hac2⟩ := List.mem_flatten.1 ha
    obtain ⟨l, hl, rfl⟩ := List.mem_iff_getElem.1 hc2
    rw [List.length_take] at hl
    have hlj : l < j := by omega
    have hlc : l < chs.length := by omega
    have hle2 : l < entries.length := by omega
    rw [List.getElem_take] at hac2
    have hd : blockDisjoint chs[l] chs[j] :=
      List.pairwise_iff_getElem.1 hdisj l j hlc hj hlj
    rcases hd with hd | hd
    · exact decide_eq_true (hd a hac2 id hidc)
    · exfalso
      have h1 := hd entries[l].min_id (hmem_of l hle2 hlc) entries[j].min_id (hmem_of j hje hj)
      have hpl : protoLe entries[l] entries[j] :=
        List.pairwise_iff_getElem.1 hsorted l j hle2 hje hlj
      unfold protoLe at hpl
      omega
  have hempty : (chs.drop (j + 1)).flatten.filter (fun x => x < id) = [] := by
    rw [List.filter_eq_nil_iff]
    intro a ha
    obtain ⟨c2, hc2, hac2⟩ := List.mem_flatten.1 ha
    obtain ⟨i, hi, rfl⟩ := List.mem_iff_getElem.1 hc2
    rw [List.length_drop] at hi
    have hlc : j + 1 + i < chs.length := by omega
    have hle2 : j + 1 + i < entries.length := by omega
    rw [List.getElem_drop] at hac2
    have hd : blockDisjoint chs[j] chs[j + 1 + i] :=
      List.pairwise_iff_getElem.1 hdisj j (j + 1 + i) hj hlc (by omega)
    simp only [decide_eq_true_eq]
    rcases hd with hd | hd
    · have := hd id hidc a hac2
      omega
    · exfalso
      have h1 := hd entries[j].min_id (hmem_of j hje hj)
        entries[j + 1 + i].min_id (hmem_of _ hle2 hlc)
      have hpl : protoLe entries[j] entries[j + 1 + i] :=
        List.pairwise_iff_getElem.1 hsorted j (j + 1 + i) hje hle2 (by omega)
      unfold protoLe at hpl
      omega
  have hflatten_count :
      (chs.flatten.filter (fun x => x < id)).length =
        ((chs.take j).map List.length).sum + (chs[j].filter (fun x => x < id)).length := by
    conv_lhs => rw [hdecomp]
    rw [List.flatten_append, List.flatten_cons, List.filter_append, List.filter_append,
      hfull, hempty, List.append_nil, List.length_append, List.length_flatten]
  show (nsSearch ⟨secs, entries.map (·.min_id), buildMetas 0 entries, L⟩ id).map
      (fun p => p.1.nodes_offset + p.2) = some ((chs.flatten.filter (fun x => x < id)).length)
  rw [hns]
  show some (((entries.take j).map rangeLen).sum + (chs[j].filter (fun x => x < id)).length) =
      some ((chs.flatten.filter (fun x => x < id)).length)
  rw [hflatten_count, hsum]

theorem flatMap_chunks_flatten {pp : Nat} (hpp : pp ≠ 0) (spec : List (List Int)) :
    (spec.flatMap (chunks pp)).flatten = spec.flatten := by
  induction spec with
  | nil => rfl
  | cons blk rest ih =>
    simp only [List.flatMap_cons, List.flatten_append, List.flatten_cons, ih,
      flatten_chunks hpp]

theorem ps_runBuilders {pp cap : Nat} (hpp1 : 1 ≤ pp) (hcm : ∃ k, cap = k * pp)
    (hppc : pp ≤ cap) (specs : List (List (List Int)))
    (hne : ∀ spec ∈ specs, ∀ blk ∈ spec, blk ≠ []) :
    List.Forall₂ (PS pp cap) (specs.map (runBuilder pp cap))
      (specs.map (fun spec => spec.flatMap (chunks pp))) := by
  induction specs with
  | nil => exact List.Forall₂.nil
  | cons spec rest ih =>
    refine List.Forall₂.cons
      (ps_run hpp1 hcm hppc spec (hne spec (List.mem_cons_self _ _))) (ih ?_)
    intro s hs
    exact hne s (List.mem_cons_of_mem _ hs)

theorem mem_of_mem_chunk {pp : Nat} (hpp : pp ≠ 0) {blk c : List Int}
    (hc : c ∈ chunks pp blk) {x : Int} (hx : x ∈ c) : x ∈ blk := by
  rw [← flatten_chunks hpp blk]
  exact List.mem_flatten.2 ⟨c, hc, hx⟩

theorem chunk_asc {pp : Nat} (hpp : pp ≠ 0) {specs : List (List (List Int))}
    (hasc : ∀ spec ∈ specs, List.Pairwise (· < ·) spec.flatten) :
    ∀ c ∈ (specs.map (fun spec => spec.flatMap (chunks pp))).flatten,
      List.Pairwise (· < ·) c := by
  intro c hc
  obtain ⟨l, hl, hcl⟩ := List.mem_flatten.1 hc
  obtain ⟨spec, hspec, rfl⟩ := List.mem_map.1 hl
  obtain ⟨blk, hblk, hcb⟩ := List.mem_flatMap.1 hcl
  have hblk_asc : List.Pairwise (· < ·) blk :=
    (List.pairwise_flatten.1 (hasc spec hspec)).1 blk hblk
  have hch := List.pairwise_flatten.1
    (show List.Pairwise (· < ·) (chunks pp blk).flatten from
      (flatten_chunks hpp blk).symm ▸ hblk_asc)
  exact hch.1 c hcb

theorem chunks_disjoint {pp : Nat} (hpp : pp ≠ 0) {specs : List (List (List Int))}
    (hasc : ∀ spec ∈ specs, List.Pairwise (· < ·) spec.flatten)
    (hdisj : List.Pairwise blockDisjoint specs.flatten) :
    List.Pairwise blockDisjoint
      (specs.map (fun spec => spec.flatMap (chunks pp))).flatten := by
  rw [List.pairwise_flatten]
  constructor
  · intro L hL
    obtain ⟨spec, hspec, rfl⟩ := List.mem_map.1 hL
    rw [List.flatMap_def, List.pairwise_flatten]
    constructor
    · intro C hC
      obtain ⟨blk, hblk, rfl⟩ := List.mem_map.1 hC
      have hblk_asc : List.Pairwise (· < ·) blk :=
        (List.pairwise_flatten.1 (hasc spec hspec)).1 blk hblk
      have hch := List.pairwise_flatten.1
        (show List.Pairwise (· < ·) (chunks pp blk).flatten from
          (flatten_chunks hpp blk).symm ▸ hblk_asc)
      exact hch.2.imp fun h => Or.inl h
    · rw [List.pairwise_map]
      refine ((List.pairwise_flatten.1 (hasc spec hspec)).2).imp ?_
      intro b1 b2 h12 c hc d hd
      exact Or.inl fun x hx y hy =>
        h12 x (mem_of_mem_chunk hpp hc hx) y (mem_of_mem_chunk hpp hd hy)
  · rw [List.pairwise_map]
    refine ((List.pairwise_flatten.1 hdisj).2).imp ?_
    intro s1 s2 h12 c hc d hd
    obtain ⟨b1, hb1, hcb1⟩ := List.mem_flatMap.1 hc
    obtain ⟨b2, hb2, hdb2⟩ := List.mem_flatMap.1 hd
    exact blockDisjoint_sub (h12 b1 hb1 b2 hb2)
      (fun x hx => mem_of_mem_chunk hpp hcb1 hx)
      (fun y hy => mem_of_mem_chunk hpp hdb2 hy)

theorem flatten_chunks_specs {pp : Nat} (hpp : pp ≠ 0)
    (specs : List (List (List Int))) :
    ((specs.map (fun spec => spec.flatMap (chunks pp))).flatten).flatten =
      specs.flatten.flatten := by
  induction specs with
  | nil => rfl
  | cons spec rest ih =>
    simp only [List.map_cons, List.flatten_cons, List.flatten_append, ih,
      flatMap_chunks_flatten hpp]

theorem len_flat2 (dones : List (List (List Int))) :
    (dones.map (fun d => d.flatten.length)).sum = dones.flatten.flatten.length := by
  induction dones with
  | nil => rfl
  | cons d rest ih =>
    simp only [List.map_cons, List.sum_cons, List.flatten_cons, List.flatten_append,
      List.length_append, ih]

/-- C7: for every family of builders, each fed blocks of strictly
ascending ids (ascending across the whole builder), the builders covering
pairwise disjoint id ranges, assembling with `Nodes::from_builders` gives
a store where `offset(id)` of every stored id is the rank of `id` among
all stored ids sorted ascending (the number of stored ids below it), the
rank lies in `[0, len)`, and `len` counts exactly the stored ids — the
page padding added by `finish_block` contributes to neither. -/
theorem nodes_offset_eq_rank (pp K : Nat) (hpp : 1 ≤ pp) (hK : 1 ≤ K)
    (specs : List (List (List Int)))
    (hasc : ∀ spec ∈ specs, List.Pairwise (· < ·) spec.flatten)
    (hne : ∀ spec ∈ specs, ∀ blk ∈ spec, blk ≠ [])
    (hdisj : List.Pairwise blockDisjoint specs.flatten)
    (id : Int) (hid : id ∈ allIdsOf specs) :
    Nodes.offset (buildNodes pp (K * pp) specs) id =
      some (((allIdsOf specs).filter (fun x => x < id)).length) ∧
    ((allIdsOf specs).filter (fun x => x < id)).length <
      (buildNodes pp (K * pp) specs).len ∧
    (buildNodes pp (K * pp) specs).len = (allIdsOf specs).length := by
  have hpp0 : pp ≠ 0 := by omega
  have hcm : ∃ k, K * pp = k * pp := ⟨K, rfl⟩
  have hppc : pp ≤ K * pp := by
    calc pp = 1 * pp := (Nat.one_mul pp).symm
    _ ≤ K * pp := Nat.mul_le_mul_right pp hK
  have hPS := ps_runBuilders hpp hcm hppc specs hne
  have hcol := collect_spec (specs.map (runBuilder pp (K * pp)))
    (specs.map (fun spec => spec.flatMap (chunks pp))) hPS [] [] 0 []
    List.Forall₂.nil
  have hE := hcol.1
  rw [List.nil_append] at hE
  have hperm : ((specs.map (runBuilder pp (K * pp))).foldl
      (fun (acc : List NSection × List IndexProto × Nat) b =>
        let fin := nbFinish b
        (acc.1 ++ fin.1,
          acc.2.1 ++ fin.2.map (fun e => { e with sec := e.sec + acc.1.length }),
          acc.2.2 + b.len)) ([], [], 0)).2.1.Perm
      (List.insertionSort protoLe ((specs.map (runBuilder pp (K * pp))).foldl
      (fun (acc : List NSection × List IndexProto × Nat) b =>
        let fin := nbFinish b
        (acc.1 ++ fin.1,
          acc.2.1 ++ fin.2.map (fun e => { e with sec := e.sec + acc.1.length }),
          acc.2.2 + b.len)) ([], [], 0)).2.1) :=
    (List.perm_insertionSort protoLe _).symm
  obtain ⟨chs2, hchsperm, hF2⟩ := perm_forall2 hperm hE
  have hsorted : List.Pairwise protoLe (List.insertionSort protoLe
      ((specs.map (runBuilder pp (K * pp))).foldl
      (fun (acc : List NSection × List IndexProto × Nat) b =>
        let fin := nbFinish b
        (acc.1 ++ fin.1,
          acc.2.1 ++ fin.2.map (fun e => { e with sec := e.sec + acc.1.length }),
          acc.2.2 + b.len)) ([], [], 0)).2.1) :=
    List.sorted_insertionSort protoLe _
  have hasc2 : ∀ c ∈ chs2, List.Pairwise (· < ·) c := by
    intro c hc
    exact chunk_asc hpp0 hasc c (hchsperm.mem_iff.2 hc)
  have hdisj2 : List.Pairwise blockDisjoint chs2 :=
    (hchsperm.pairwise_iff fun h => blockDisjoint_symm h).1
      (chunks_disjoint hpp0 hasc hdisj)
  have hflat : (specs.map (fun spec => spec.flatMap (chunks pp))).flatten.flatten =
      allIdsOf specs := flatten_chunks_specs hpp0 specs
  have hid2 : id ∈ chs2.flatten := by
    refine (hchsperm.flatten.mem_iff).1 ?_
    rw [hflat]
    exact hid
  have hcnt : (chs2.flatten.filter (fun x => x < id)).length =
      ((allIdsOf specs).filter (fun x => x < id)).length := by
    rw [← hflat]
    exact ((hchsperm.flatten.filter (fun x => decide (x < id))).length_eq).symm
  have hlen_eq : (buildNodes pp (K * pp) specs).len = (allIdsOf specs).length := by
    show ((specs.map (runBuilder pp (K * pp))).foldl
      (fun (acc : List NSection × List IndexProto × Nat) b =>
        let fin := nbFinish b
        (acc.1 ++ fin.1,
          acc.2.1 ++ fin.2.map (fun e => { e with sec := e.sec + acc.1.length }),
          acc.2.2 + b.len)) ([], [], 0)).2.2 = (allIdsOf specs).length
    rw [hcol.2, Nat.zero_add, len_flat2, hflat]
  have hrank_lt : ((allIdsOf specs).filter (fun x => x < id)).length <
      (allIdsOf specs).length := by
    have hle := List.length_filter_le (fun x => decide (x < id)) (allIdsOf specs)
    rcases lt_or_eq_of_le hle with h | h
    · exact h
    · exfalso
      have hcp : (allIdsOf specs).countP (fun x => decide (x < id)) =
          (allIdsOf specs).length := by
        rw [List.countP_eq_length_filter, h]
      have hall := List.countP_eq_length.1 hcp id hid
      simp at hall
  refine ⟨?_, ?_, hlen_eq⟩
  · rw [← hcnt]
    exact offset_correct _ _ chs2 _ hF2 hsorted hasc2 hdisj2 id hid2
  · rw [hlen_eq]
    exact hrank_lt

/-- Witness for C7: two builders, one fed blocks `[1,2]` and `[5]`, the
other `[10]`, with pages of 2 ids and one page per section; `offset 5` is
rank 2 among the stored ids `1,2,5,10` and `len` is 4. -/
theorem nodes_offset_eq_rank_witness :
    Nodes.offset (buildNodes 2 (1 * 2) [[[1, 2], [5]], [[10]]]) 5 = some 2 ∧
    2 < (buildNodes 2 (1 * 2) [[[1, 2], [5]], [[10]]]).len ∧
    (buildNodes 2 (1 * 2) [[[1, 2], [5]], [[10]]]).len = 4 := by
  obtain ⟨h1, h2, h3⟩ := nodes_offset_eq_rank 2 1 (by decide) (by decide)
    [[[1, 2], [5]], [[10]]] (by decide) (by decide) (by decide) 5 (by decide)
  exact ⟨by rw [h1]; decide, h2, by rw [h3]; decide⟩

end Ptolemy
